import Mathlib

/-! # OSRM-output: travel-matrix engine and polygon sampler

A shallow embedding of `DockerImage/src/OSRM_Engine.cpp` and
`include/OSRMParameters.h`, followed by theorems about the partition of the
flat index space, the matrix fill with its fallback values, and the
rejection sampler.

Conventions of the embedding.

* A C++ `int` is an `Int` known to lie in `[INT32_MIN, INT32_MAX]`.  Signed
  overflow, division by zero and an out-of-range `double → int` conversion are
  undefined behaviour in C++; every operation that can hit one of them returns
  `Option`, and `none` means "the run has no defined result".
* A finite `double` is the rational number it denotes.  Conversions
  `double → int` truncate toward zero (`truncate`).  Operations on doubles that
  round are not computed in `ℚ`: they are fields of `FloatArith`, and the
  libm-based `haversine` and the routing engine are fields of `Collaborators`.
* The worker threads of `run_parallel` are run one after the other, in spawn
  order.  Every worker touches only the cells of its own index range.
-/

namespace OsrmOutput

/-! ## Machine integers -/

/-- Largest `int` value; also the "unset" marker of the travel matrices. -/
def INT32_MAX : Int := 2147483647

/-- Smallest `int` value. -/
def INT32_MIN : Int := -2147483648

/-- Value of an `int` expression whose mathematical value is `x`: defined only
when `x` is representable. -/
def checked (x : Int) : Option Int :=
  if INT32_MIN ≤ x ∧ x ≤ INT32_MAX then some x else none

/-- The `int` quotient `a / b`: truncating, undefined for `b = 0` and when the
quotient is not representable. -/
def idiv (a b : Int) : Option Int :=
  if b = 0 then none else checked (Int.tdiv a b)

/-- The `int` remainder `a % b`: sign of the dividend, undefined for `b = 0`
and when the quotient `a / b` is not representable. -/
def imod (a b : Int) : Option Int :=
  if b = 0 then none else (checked (Int.tdiv a b)).bind (fun _ => some (Int.tmod a b))

/-- Conversion `double → int` on the exact value: the fractional part is
discarded. -/
def truncate (q : ℚ) : Int := if 0 ≤ q then ⌊q⌋ else ⌈q⌉

/-- The conversion `static_cast<int>(q)` and the implicit conversion in
`int x = q`: undefined when the truncated value is not representable. -/
def toInt32 (q : ℚ) : Option Int := checked (truncate q)

/-! ## `run_parallel`: the partition of the flat index space -/

/-- The local `payload_size` of `run_parallel`:
`(coordinates1Size * coordinates2Size + num_threads - 1) / num_threads`. -/
def payload_size (coordinates1Size coordinates2Size num_threads : Int) : Option Int := do
  let total ← checked (coordinates1Size * coordinates2Size)
  let a ← checked (total + num_threads)
  let b ← checked (a - 1)
  idiv b num_threads

/-- The pair `(start_i, end_i)` computed in iteration `i` of the spawning loop:
`start_i = i * payload_size`,
`end_i = min(coordinates1Size * coordinates2Size, (i + 1) * payload_size)`. -/
def thread_range (coordinates1Size coordinates2Size payload : Int) (i : Int) :
    Option (Int × Int) := do
  let start_i ← checked (i * payload)
  let i1 ← checked (i + 1)
  let e ← checked (i1 * payload)
  let total ← checked (coordinates1Size * coordinates2Size)
  some (start_i, min total e)

/-- The first `k` iterations of `for (int i = 0; i < num_threads; ++i)`: the
ranges handed to the workers, in spawn order. -/
def spawn_ranges (coordinates1Size coordinates2Size payload : Int) :
    Nat → Option (List (Int × Int))
  | 0 => some []
  | k + 1 => do
    let rs ← spawn_ranges coordinates1Size coordinates2Size payload k
    let r ← thread_range coordinates1Size coordinates2Size payload (k : Int)
    some (rs ++ [r])

/-- All ranges `[start_i, end_i)` that `run_parallel` hands out, for
`i = 0 .. num_threads - 1` (no iteration when `num_threads ≤ 0`). -/
def run_parallel_ranges (coordinates1Size coordinates2Size num_threads : Int) :
    Option (List (Int × Int)) := do
  let payload ← payload_size coordinates1Size coordinates2Size num_threads
  spawn_ranges coordinates1Size coordinates2Size payload num_threads.toNat

/-- The values taken by `i` in `for (int i = start_i; i < end_i; ++i)`. -/
def loop_indices (start_i end_i : Int) : List Int :=
  (List.range (end_i - start_i).toNat).map (fun d : Nat => start_i + (d : Int))

/-- The lambda `run_parallel`: one worker per range, each calling
`proc(start_i, end_i)`; returns after all workers are joined. -/
def run_parallel {σ : Type} (coordinates1Size coordinates2Size num_threads : Int)
    (proc : Int → Int → σ → Option σ) (st : σ) : Option σ := do
  let rs ← run_parallel_ranges coordinates1Size coordinates2Size num_threads
  rs.foldlM (fun s r => proc r.1 r.2 s) st

/-! ## Doubles and the collaborators of the engine -/

/-- A coordinate as the source stores it: `(longitude, latitude)`, two doubles
(`coordinates[i][0]`, `coordinates[i][1]`; `.first`, `.second`). -/
abbrev Coord := ℚ × ℚ

/-- The double `m / 2 ^ e`: used to write the value a decimal literal of the
source denotes. -/
def double (m : Int) (e : Nat) : ℚ := (m : ℚ) / 2 ^ e

/-- Arithmetic on doubles as the machine performs it (each operation rounds).
The operations are not computed here; the one law used is that `a - b` and
`b - a` round to opposite values. -/
structure FloatArith where
  add : ℚ → ℚ → ℚ
  sub : ℚ → ℚ → ℚ
  mul : ℚ → ℚ → ℚ
  div : ℚ → ℚ → ℚ
  abs_sub_comm : ∀ a b : ℚ, |sub a b| = |sub b a|

/-- Arithmetic without rounding, for running the definitions on small
inputs. -/
def exactArith : FloatArith where
  add := fun a b => a + b
  sub := fun a b => a - b
  mul := fun a b => a * b
  div := fun a b => a / b
  abs_sub_comm := fun a b => abs_sub_comm a b

/-- What `OSRM.engine->Route(params, result)` hands back, as far as `osrm_proc`
reads it: status `Ok` with the first route's `distance` and `duration`, or
status `Error` with `code` and `message`. -/
inductive RouteOutcome where
  | Ok (route_distance route_time : ℚ)
  | Error (code message : String)

/-- Everything the engine calls and this development does not compute: the
double arithmetic, the value returned by `haversine(lat1, lon1, lat2, lon2)`
(built from `sin`, `cos`, `atan2`, `sqrt`), and the routing engine queried
with an origin and a destination. -/
structure Collaborators where
  fa : FloatArith
  haversine : ℚ → ℚ → ℚ → ℚ → ℚ
  Route : Coord → Coord → RouteOutcome

/-! ## `osrmEngine` -/

/-- The data `osrmEngine` works on: the two matrices passed by reference, the
local array `haversineDistances`, and the list of requests sent to the routing
engine so far (origin, destination). -/
structure EngineState where
  travel_distances : Int → Int → Int
  travel_times : Int → Int → Int
  haversineDistances : Int → Int
  queries : List (Coord × Coord)

/-- The assignment `m[i1][i2] = v`. -/
def set_cell (m : Int → Int → Int) (i1 i2 v : Int) : Int → Int → Int :=
  fun a b => if a = i1 ∧ b = i2 then v else m a b

/-- One iteration of the loop of `harvestine_proc`:
`haversineDistances[i] = haversine(...)`, the double converted to `int`. -/
def harvestine_step (W : Collaborators) (coordinates1 coordinates2 : Int → Coord)
    (coordinates2Size : Int) (st : EngineState) (i : Int) : Option EngineState := do
  let i1 ← idiv i coordinates2Size
  let i2 ← imod i coordinates2Size
  let haversineDistance ← toInt32
    (W.haversine (coordinates1 i1).2 (coordinates1 i1).1 (coordinates2 i2).2 (coordinates2 i2).1)
  some { st with
    haversineDistances := fun k => if k = i then haversineDistance else st.haversineDistances k }

/-- The lambda `harvestine_proc(start_i, end_i)`. -/
def harvestine_proc (W : Collaborators) (coordinates1 coordinates2 : Int → Coord)
    (coordinates2Size : Int) (start_i end_i : Int) (st : EngineState) : Option EngineState :=
  (loop_indices start_i end_i).foldlM (harvestine_step W coordinates1 coordinates2 coordinates2Size) st

/-- The test of line 159: both coordinates agree on both axes after
`static_cast<int>(x * 100)`.  It only selects which diagnostic is printed; both
arms assign the same values.  For coordinates in degrees the products are far
inside the `int` range, so the conversions are taken as defined. -/
def same_location (fa : FloatArith) (a b : Coord) : Bool :=
  decide (truncate (fa.mul a.1 100) = truncate (fa.mul b.1 100) ∧
    truncate (fa.mul a.2 100) = truncate (fa.mul b.2 100))

/-- One iteration of the loop of `osrm_proc`.  A cell whose travel time is not
`INT32_MAX` is left alone; otherwise one request is sent and the cell gets

* status `Ok`, distance and duration non-zero: the routed values;
* status `Ok`, distance or duration zero: `haversineDistance * 1.5` and
  `result_distance / 14.0`, in both arms of the same-location test;
* status `Error`: `haversineDistance * 2` (an `int` product) and
  `result_distance / 12.0`.

Every assignment converts to `int`.  `haversineDistance * 1.5` is exact in
double arithmetic for an `int` operand; the double quotient of an `int` by
`14.0` or `12.0` has the same integer part as the exact quotient, so both are
written with exact arithmetic. -/
def osrm_step (W : Collaborators) (coordinates1 coordinates2 : Int → Coord)
    (coordinates2Size : Int) (st : EngineState) (i : Int) : Option EngineState := do
  let i1 ← idiv i coordinates2Size
  let i2 ← imod i coordinates2Size
  let haversineDistance := st.haversineDistances i
  if st.travel_times i1 i2 = INT32_MAX then
    let origin := coordinates1 i1
    let destination := coordinates2 i2
    let queries := st.queries ++ [(origin, destination)]
    match W.Route origin destination with
    | RouteOutcome.Ok route_distance route_time =>
      if route_distance = 0 ∨ route_time = 0 then
        if same_location W.fa origin destination then
          let result_distance ← toInt32 ((haversineDistance : ℚ) * (3 / 2))
          let result_time ← toInt32 ((result_distance : ℚ) / 14)
          some { st with
            travel_distances := set_cell st.travel_distances i1 i2 result_distance
            travel_times := set_cell st.travel_times i1 i2 result_time
            queries := queries }
        else
          let result_distance ← toInt32 ((haversineDistance : ℚ) * (3 / 2))
          let result_time ← toInt32 ((result_distance : ℚ) / 14)
          some { st with
            travel_distances := set_cell st.travel_distances i1 i2 result_distance
            travel_times := set_cell st.travel_times i1 i2 result_time
            queries := queries }
      else
        let result_distance ← toInt32 route_distance
        let result_time ← toInt32 route_time
        some { st with
          travel_distances := set_cell st.travel_distances i1 i2 result_distance
          travel_times := set_cell st.travel_times i1 i2 result_time
          queries := queries }
    | RouteOutcome.Error _ _ =>
      let result_distance ← checked (haversineDistance * 2)
      let result_time ← toInt32 ((result_distance : ℚ) / 12)
      some { st with
        travel_distances := set_cell st.travel_distances i1 i2 result_distance
        travel_times := set_cell st.travel_times i1 i2 result_time
        queries := queries }
  else
    some st

/-- The lambda `osrm_proc(start_i, end_i)`. -/
def osrm_proc (W : Collaborators) (coordinates1 coordinates2 : Int → Coord)
    (coordinates2Size : Int) (start_i end_i : Int) (st : EngineState) : Option EngineState :=
  (loop_indices start_i end_i).foldlM (osrm_step W coordinates1 coordinates2 coordinates2Size) st

/-- The function `osrmEngine`: allocate `haversineDistances` (zero-filled, of
size `coordinates1Size * coordinates2Size`), run `harvestine_proc` in parallel,
then run `osrm_proc` in parallel.  `max_threads` is `OSRM.max_threads`. -/
def osrmEngine (W : Collaborators) (travel_distances travel_times : Int → Int → Int)
    (coordinates1Size coordinates2Size : Int) (coordinates1 coordinates2 : Int → Coord)
    (max_threads : Int) : Option EngineState := do
  let size ← checked (coordinates1Size * coordinates2Size)
  if size < 0 then none else
  let st0 : EngineState :=
    { travel_distances := travel_distances
      travel_times := travel_times
      haversineDistances := fun _ => 0
      queries := [] }
  let st1 ← run_parallel coordinates1Size coordinates2Size max_threads
    (harvestine_proc W coordinates1 coordinates2 coordinates2Size) st0
  run_parallel coordinates1Size coordinates2Size max_threads
    (osrm_proc W coordinates1 coordinates2 coordinates2Size) st1

/-- The matrices after the initialisation loop of `calculate_osrm_metrics`:
zero on the diagonal, `INT32_MAX` elsewhere.  The source has the cells
`0 ≤ i, j < Number_of_locations` only; no other cell is read or written. -/
def initial_matrix : Int → Int → Int :=
  fun i j => if i = j then 0 else INT32_MAX

/-- The function `calculate_osrm_metrics`, up to the return of `osrmEngine`
(the fill).  `start_engine` leaves the process when there is no location
(`none` here) and sets `max_threads` to the number of hardware threads, which
is the parameter `max_threads`. -/
def calculate_osrm_metrics (W : Collaborators) (Number_of_locations : Int)
    (coordinates : Int → Coord) (max_threads : Int) : Option EngineState :=
  if Number_of_locations ≤ 0 then none
  else osrmEngine W initial_matrix initial_matrix Number_of_locations Number_of_locations
    coordinates coordinates max_threads

/-! ## The sampler of `osrm_params` -/

/-- The method `point_in_polygon`: the loop
`for (int i = 0, j = n - 1; i < n; j = i++)` toggles `inside` at every edge for
which `intersect` holds. -/
def point_in_polygon (fa : FloatArith) (lon lat : ℚ) (poly : List Coord) : Bool :=
  let n := poly.length
  ((List.range n).foldl
    (fun (acc : Bool × Nat) (i : Nat) =>
      let inside := acc.1
      let j := acc.2
      let xi := (poly.getD i (0, 0)).1
      let yi := (poly.getD i (0, 0)).2
      let xj := (poly.getD j (0, 0)).1
      let yj := (poly.getD j (0, 0)).2
      let intersect : Bool :=
        (decide (yi > lat) != decide (yj > lat)) &&
          decide (lon < fa.add
            (fa.div (fa.mul (fa.sub xj xi) (fa.sub lat yi)) (fa.add (fa.sub yj yi) 0)) xi)
      (if intersect then !inside else inside, i))
    (false, n - 1)).1

/-- The polygon `belgium_poly` of `sample_locations_in_belgium`, vertices
`(lon, lat)`: (3.8, 50.8), (4.6, 50.8), (5.1, 50.95), (4.9, 51.25),
(4.2, 51.25), (3.7, 51.05), each literal as the double it denotes. -/
def belgium_poly : List Coord :=
  [ (double 4278419646001971 50, double 3574732204225331 46),
    (double 2589569785738035 49, double 3574732204225331 46),
    (double 2871044762448691 49, double 3585287515851981 46),
    (double 2758454771764429 49, double 205 2),
    (double 4728779608739021 50, double 205 2),
    (double 4165829655317709 50, double 3592324390269747 46) ]

/-- The literal `1e-6` of the near-duplicate test, as the double it denotes. -/
def EPS : ℚ := double 4722366482869645 72

/-- The near-duplicate test of lines 170-176: some accepted point is within
`1e-6` of `(lon, lat)` on both axes. -/
def near_duplicate (fa : FloatArith) (coordinates : List Coord) (lon lat : ℚ) : Bool :=
  coordinates.any (fun p => decide (|fa.sub p.1 lon| < EPS ∧ |fa.sub p.2 lat| < EPS))

/-- The `while` loop of `sample_locations_in_belgium`.  `candidate k` is the
pair `(lon_dist(rng), lat_dist(rng))` drawn in iteration `k` (counted from 0).
The first argument bounds the number of iterations; the loop itself stops
when `count` points are stored or `attempts` reaches `max_attempts`.  Returns
`coordinates` and `attempts`. -/
def sample_loop (fa : FloatArith) (poly : List Coord) (count max_attempts : Int)
    (candidate : Nat → Coord) : Nat → List Coord → Int → List Coord × Int
  | 0, coordinates, attempts => (coordinates, attempts)
  | fuel + 1, coordinates, attempts =>
    if (coordinates.length : Int) < count ∧ attempts < max_attempts then
      let lon := (candidate attempts.toNat).1
      let lat := (candidate attempts.toNat).2
      if !point_in_polygon fa lon lat poly then
        sample_loop fa poly count max_attempts candidate fuel coordinates (attempts + 1)
      else if near_duplicate fa coordinates lon lat then
        sample_loop fa poly count max_attempts candidate fuel coordinates (attempts + 1)
      else
        sample_loop fa poly count max_attempts candidate fuel (coordinates ++ [(lon, lat)])
          (attempts + 1)
    else (coordinates, attempts)

/-- The members of `osrm_params` that `sample_locations_in_belgium` writes,
with the final value of its local counter `attempts`. -/
structure SamplerState where
  coordinates : List Coord
  Number_of_locations : Int
  sampledCoordinates : Bool
  attempts : Int

/-- The method `sample_locations_in_belgium(count)` on the members `old`:
for `count ≤ 0` it returns at once and changes nothing. -/
def sample_locations_in_belgium (fa : FloatArith) (candidate : Nat → Coord)
    (old : SamplerState) (count : Int) : Option SamplerState :=
  if count ≤ 0 then some { old with attempts := 0 }
  else do
    let c ← checked (count * 1000)
    let max_attempts := max 10000 c
    let r := sample_loop fa belgium_poly count max_attempts candidate max_attempts.toNat [] 0
    some { coordinates := r.1
           Number_of_locations := (r.1.length : Int)
           sampledCoordinates := true
           attempts := r.2 }

/-! ## Auxiliary definitions for the statements -/

/-- The double `haversine(coordinates1[i1][1], coordinates1[i1][0],
coordinates2[i2][1], coordinates2[i2][0])` that `harvestine_proc` computes for
the cell `(i1, i2)`: the geodesic distance of the pair, in meters. -/
def geodesic (W : Collaborators) (coordinates1 coordinates2 : Int → Coord) (i1 i2 : Int) : ℚ :=
  W.haversine (coordinates1 i1).2 (coordinates1 i1).1 (coordinates2 i2).2 (coordinates2 i2).1

/-- The pair `(result_distance, result_time)` that an iteration of `osrm_proc`
assigns, as a function of the answer of the routing engine and of the stored
`haversineDistance`. -/
def resolved (o : RouteOutcome) (haversineDistance : Int) : Option (Int × Int) :=
  match o with
  | RouteOutcome.Ok route_distance route_time =>
    if route_distance = 0 ∨ route_time = 0 then
      (toInt32 ((haversineDistance : ℚ) * (3 / 2))).bind fun result_distance =>
        (toInt32 ((result_distance : ℚ) / 14)).bind fun result_time =>
          some (result_distance, result_time)
    else
      (toInt32 route_distance).bind fun result_distance =>
        (toInt32 route_time).bind fun result_time =>
          some (result_distance, result_time)
  | RouteOutcome.Error _ _ =>
    (checked (haversineDistance * 2)).bind fun result_distance =>
      (toInt32 ((result_distance : ℚ) / 12)).bind fun result_time =>
        some (result_distance, result_time)

/-- Rounding to the nearest integer, halves away from zero (`std::round`). -/
def round_half_away (q : ℚ) : Int := if 0 ≤ q then ⌊q + 1 / 2⌋ else ⌈q - 1 / 2⌉

/-- State of the geodesic pass after the flat indices below `k`: the matrices
and the request list are untouched and `haversineDistances[q]` holds the
converted geodesic distance of cell `q` for every `q < k`. -/
def HarvestInv (W : Collaborators) (c1 c2 : Int → Coord) (n : Int) (st0 : EngineState)
    (k : Int) (s : EngineState) : Prop :=
  s.travel_distances = st0.travel_distances ∧ s.travel_times = st0.travel_times ∧
    s.queries = st0.queries ∧
    ∀ q, 0 ≤ q → q < k → toInt32 (geodesic W c1 c2 (q / n) (q % n)) = some (s.haversineDistances q)

/-- State of the routing pass after the flat indices below `k`, started from
`s1` with freshly initialised matrices: cells at or above `k` still hold their
initial value, diagonal cells below `k` hold zero, and every other cell below
`k` holds the pair `resolved` gives for its answer and geodesic distance. -/
def OsrmInv (W : Collaborators) (c1 c2 : Int → Coord) (n : Int) (s1 : EngineState)
    (k : Int) (s : EngineState) : Prop :=
  s.haversineDistances = s1.haversineDistances ∧
    (∀ q, k ≤ q → q < n * n →
      s.travel_distances (q / n) (q % n) = initial_matrix (q / n) (q % n) ∧
      s.travel_times (q / n) (q % n) = initial_matrix (q / n) (q % n)) ∧
    (∀ q, 0 ≤ q → q < k →
      if q / n = q % n then
        s.travel_distances (q / n) (q % n) = 0 ∧ s.travel_times (q / n) (q % n) = 0
      else
        resolved (W.Route (c1 (q / n)) (c2 (q % n))) (s1.haversineDistances q) =
          some (s.travel_distances (q / n) (q % n), s.travel_times (q / n) (q % n)))

/-- Bounds under which no `int` operation of the fill leaves the representable
range: `N * N + max_threads` is representable, every geodesic distance of the
location set lies in `[0, 2^30)`, and every `Ok` answer has components of
absolute value below `2^31`. -/
def InRange (W : Collaborators) (N : Int) (coordinates : Int → Coord) (max_threads : Int) :
    Prop :=
  N * N + max_threads ≤ INT32_MAX ∧
    ∀ i j, 0 ≤ i → i < N → 0 ≤ j → j < N →
      (0 ≤ geodesic W coordinates coordinates i j ∧
        geodesic W coordinates coordinates i j < 1073741824) ∧
      ∀ d t, W.Route (coordinates i) (coordinates j) = RouteOutcome.Ok d t →
        |d| < 2147483648 ∧ |t| < 2147483648

/-! ## Concrete scenarios -/

/-- Locations on the parallel of latitude 51, `step` degrees of longitude
apart, starting at longitude 4. -/
def line_coordinates (step : ℚ) : Int → Coord :=
  fun i => (4 + (i : ℚ) * step, 51)

/-- A test double for the collaborators: exact arithmetic, a geodesic distance
of `g` meters between any two different points (0 between a point and
itself), and a routing engine that answers `o` to every request. -/
def scenario (g : ℚ) (o : RouteOutcome) : Collaborators where
  fa := exactArith
  haversine := fun lat1 lon1 lat2 lon2 => if lat1 = lat2 ∧ lon1 = lon2 then 0 else g
  Route := fun _ _ => o

/-! ## Auxiliary definitions for the ray casting test -/

/-- The index `j` that the loop of `point_in_polygon` pairs with `i`
(`j = n - 1` at first, then `j = i++`): the previous vertex, cyclically. -/
def previous_vertex (n i : Nat) : Nat := if i = 0 then n - 1 else i - 1

/-- The double `(xj - xi) * (lat - yi) / (yj - yi + 0.0) + xi` that the loop
computes for the edge from vertex `i` to the previous vertex: the longitude
of the edge at latitude `lat`. -/
def edge_longitude (fa : FloatArith) (lat : ℚ) (poly : List Coord) (i : Nat) : ℚ :=
  let xi := (poly.getD i (0, 0)).1
  let yi := (poly.getD i (0, 0)).2
  let xj := (poly.getD (previous_vertex poly.length i) (0, 0)).1
  let yj := (poly.getD (previous_vertex poly.length i) (0, 0)).2
  fa.add (fa.div (fa.mul (fa.sub xj xi) (fa.sub lat yi)) (fa.add (fa.sub yj yi) 0)) xi

/-- The value of `intersect` for the edge from vertex `i` to the previous
vertex. -/
def edge_crossed (fa : FloatArith) (lon lat : ℚ) (poly : List Coord) (i : Nat) : Bool :=
  (decide ((poly.getD i (0, 0)).2 > lat) !=
      decide ((poly.getD (previous_vertex poly.length i) (0, 0)).2 > lat)) &&
    decide (lon < edge_longitude fa lat poly i)

/-- Number of edges of the polygon for which `intersect` holds. -/
def crossings (fa : FloatArith) (lon lat : ℚ) (poly : List Coord) : Nat :=
  ((List.range poly.length).filter (edge_crossed fa lon lat poly)).length

/-- The crossing test in the words of the specification: the latitude of the
point lies strictly between the two endpoint latitudes of the edge, and `lon`
is less than the longitude of the edge at that latitude. -/
def edge_crossed_strict (fa : FloatArith) (lon lat : ℚ) (poly : List Coord) (i : Nat) : Bool :=
  decide (((poly.getD i (0, 0)).2 < lat ∧
        lat < (poly.getD (previous_vertex poly.length i) (0, 0)).2) ∨
      ((poly.getD (previous_vertex poly.length i) (0, 0)).2 < lat ∧
        lat < (poly.getD i (0, 0)).2)) &&
    decide (lon < edge_longitude fa lat poly i)

/-- Number of edges crossed in the sense of `edge_crossed_strict`. -/
def crossings_strict (fa : FloatArith) (lon lat : ℚ) (poly : List Coord) : Nat :=
  ((List.range poly.length).filter (edge_crossed_strict fa lon lat poly)).length

/-- A diamond with its four vertices at `(0, 1)`, `(1, 0)`, `(2, 1)`, `(1, 2)`;
its centre is `(1, 1)`. -/
def diamond : List Coord := [(0, 1), (1, 0), (2, 1), (1, 2)]

/-! ## Auxiliary definitions for the requests and for the sequential fill -/

/-- The flat indices of the non-diagonal cells of an `N × N` matrix, in
increasing order. -/
def off_diagonal (N : Int) : List Int :=
  (loop_indices 0 (N * N)).filter (fun q => decide (q / N ≠ q % N))

/-- The ordered pairs `(i, j)` of the non-diagonal cells, row by row. -/
def queried_pairs (N : Int) : List (Int × Int) :=
  (off_diagonal N).map (fun q => (q / N, q % N))

/-- The fill without workers, in the words of the specification: starting
from the initialised matrices, one pass over the flat indices `0, …, N*N - 1`
in increasing order that stores the geodesic distance of every cell, then one
pass in the same order that resolves every cell. -/
def sequential_fill (W : Collaborators) (N : Int) (coordinates : Int → Coord) :
    Option EngineState :=
  ((loop_indices 0 (N * N)).foldlM (harvestine_step W coordinates coordinates N)
    { travel_distances := initial_matrix, travel_times := initial_matrix,
      haversineDistances := fun _ => 0, queries := [] }).bind fun s1 =>
    (loop_indices 0 (N * N)).foldlM (osrm_step W coordinates coordinates N) s1

/-! # Theorems -/

/-! ## Machine integers: basic facts -/

theorem checked_eq_some {x y : Int} :
    checked x = some y ↔ INT32_MIN ≤ x ∧ x ≤ INT32_MAX ∧ y = x := by
  unfold checked
  split_ifs with h
  · constructor
    · intro e
      cases e
      exact ⟨h.1, h.2, rfl⟩
    · rintro ⟨_, _, rfl⟩
      rfl
  · constructor
    · intro e
      cases e
    · rintro ⟨h1, h2, _⟩
      exact absurd ⟨h1, h2⟩ h

theorem checked_of_range {x : Int} (h1 : INT32_MIN ≤ x) (h2 : x ≤ INT32_MAX) :
    checked x = some x :=
  checked_eq_some.2 ⟨h1, h2, rfl⟩

theorem idiv_eq_some {a b q : Int} :
    idiv a b = some q ↔ b ≠ 0 ∧ INT32_MIN ≤ Int.tdiv a b ∧ Int.tdiv a b ≤ INT32_MAX ∧
      q = Int.tdiv a b := by
  unfold idiv
  split_ifs with h
  · simp [h]
  · simp [h, checked_eq_some]

theorem imod_eq_some {a b r : Int} :
    imod a b = some r ↔ b ≠ 0 ∧ INT32_MIN ≤ Int.tdiv a b ∧ Int.tdiv a b ≤ INT32_MAX ∧
      r = Int.tmod a b := by
  unfold imod
  split_ifs with h
  · simp [h]
  · simp only [Option.bind_eq_some, checked_eq_some, Option.some.injEq, ne_eq, h,
      not_false_eq_true, true_and]
    constructor
    · rintro ⟨_, ⟨h1, h2, _⟩, e⟩
      exact ⟨h1, h2, e.symm⟩
    · rintro ⟨h1, h2, e⟩
      exact ⟨_, ⟨h1, h2, rfl⟩, e.symm⟩

/-- On a flat index `0 ≤ k < n * n ≤ INT32_MAX` the `int` quotient and
remainder by `n` are defined and are the mathematical ones. -/
theorem idiv_imod_flat {n k : Int} (hn : 1 ≤ n) (hk0 : 0 ≤ k) (hk : k < n * n)
    (hT : n * n ≤ INT32_MAX) :
    idiv k n = some (k / n) ∧ imod k n = some (k % n) ∧
      0 ≤ k / n ∧ k / n < n ∧ 0 ≤ k % n ∧ k % n < n := by
  have hn0 : (0 : Int) ≤ n := by omega
  have hd : Int.tdiv k n = k / n := Int.tdiv_eq_ediv hk0 hn0
  have hm : Int.tmod k n = k % n := Int.tmod_eq_emod hk0 hn0
  have h1 : 0 ≤ k / n := Int.ediv_nonneg hk0 hn0
  have h2 : k / n < n := Int.ediv_lt_of_lt_mul (by omega) hk
  have h3 : 0 ≤ k % n := Int.emod_nonneg k (by omega)
  have h4 : k % n < n := Int.emod_lt_of_pos k (by omega)
  have hmax : INT32_MAX = 2147483647 := rfl
  have hmin : INT32_MIN = -2147483648 := rfl
  have h5 : k / n ≤ INT32_MAX := by nlinarith
  refine ⟨?_, ?_, h1, h2, h3, h4⟩
  · rw [idiv_eq_some]
    exact ⟨by omega, by omega, by omega, hd.symm⟩
  · rw [imod_eq_some]
    exact ⟨by omega, by omega, by omega, hm.symm⟩

/-- A cell `(i, j)` of an `n × n` matrix has the flat index `i * n + j`. -/
theorem flat_index_of_cell {n i j : Int} (hi0 : 0 ≤ i) (hi : i < n) (hj0 : 0 ≤ j)
    (hj : j < n) :
    0 ≤ i * n + j ∧ i * n + j < n * n ∧ (i * n + j) / n = i ∧ (i * n + j) % n = j := by
  have hn : 0 < n := by omega
  refine ⟨by nlinarith, by nlinarith, ?_, ?_⟩
  · rw [Int.add_comm, Int.add_mul_ediv_right _ _ (by omega), Int.ediv_eq_zero_of_lt hj0 hj]
    simp
  · rw [Int.add_comm, Int.add_mul_emod_self, Int.emod_eq_of_lt hj0 hj]

/-- Two flat indices with the same row and column are equal. -/
theorem flat_index_inj {n k q : Int} (h1 : k / n = q / n) (h2 : k % n = q % n) : k = q := by
  have a := Int.ediv_add_emod k n
  have b := Int.ediv_add_emod q n
  rw [h1, h2] at a
  omega

/-! ## Facts about the partition -/

/-- Arithmetic of the payload `p = (T + w - 1) / w` for `T ≥ 0`, `w ≥ 1`. -/
theorem payload_arith {T w : Int} (hT : 0 ≤ T) (hw : 1 ≤ w) :
    0 ≤ (T + w - 1) / w ∧ T ≤ w * ((T + w - 1) / w) ∧ w * ((T + w - 1) / w) ≤ T + w - 1 ∧
      (1 ≤ T → 1 ≤ (T + w - 1) / w) := by
  have hw0 : 0 < w := by omega
  have h1 : 0 ≤ (T + w - 1) / w := Int.ediv_nonneg (by omega) (by omega)
  have h2 := Int.lt_ediv_add_one_mul_self (T + w - 1) hw0
  have h3 := Int.ediv_mul_le (T + w - 1) (show w ≠ 0 by omega)
  refine ⟨h1, by nlinarith, by nlinarith, ?_⟩
  intro hT1
  exact (Int.le_ediv_iff_mul_le hw0).2 (by omega)

theorem payload_size_eq_some {c1 c2 w p : Int} :
    payload_size c1 c2 w = some p ↔
      (INT32_MIN ≤ c1 * c2 ∧ c1 * c2 ≤ INT32_MAX) ∧
      (INT32_MIN ≤ c1 * c2 + w ∧ c1 * c2 + w ≤ INT32_MAX) ∧
      (INT32_MIN ≤ c1 * c2 + w - 1 ∧ c1 * c2 + w - 1 ≤ INT32_MAX) ∧
      w ≠ 0 ∧ INT32_MIN ≤ Int.tdiv (c1 * c2 + w - 1) w ∧
      Int.tdiv (c1 * c2 + w - 1) w ≤ INT32_MAX ∧ p = Int.tdiv (c1 * c2 + w - 1) w := by
  unfold payload_size
  simp only [bind, Option.bind_eq_some, checked_eq_some, idiv_eq_some]
  constructor
  · rintro ⟨t, ⟨h1, h2, rfl⟩, a, ⟨h3, h4, rfl⟩, b, ⟨h5, h6, rfl⟩, h7, h8, h9, rfl⟩
    exact ⟨⟨h1, h2⟩, ⟨h3, h4⟩, ⟨h5, h6⟩, h7, h8, h9, rfl⟩
  · rintro ⟨⟨h1, h2⟩, ⟨h3, h4⟩, ⟨h5, h6⟩, h7, h8, h9, rfl⟩
    exact ⟨_, ⟨h1, h2, rfl⟩, _, ⟨h3, h4, rfl⟩, _, ⟨h5, h6, rfl⟩, h7, h8, h9, rfl⟩

/-- With at least one worker and a non-negative cell count the payload is
defined exactly when `total + num_threads` is representable, and it is the
ceiling of `total / num_threads`. -/
theorem payload_size_pos {c1 c2 w : Int} (hT : 0 ≤ c1 * c2) (hw : 1 ≤ w)
    (hr : c1 * c2 + w ≤ INT32_MAX) :
    payload_size c1 c2 w = some ((c1 * c2 + w - 1) / w) := by
  have hmax : INT32_MAX = 2147483647 := rfl
  have hmin : INT32_MIN = -2147483648 := rfl
  have hd : Int.tdiv (c1 * c2 + w - 1) w = (c1 * c2 + w - 1) / w :=
    Int.tdiv_eq_ediv (by omega) (by omega)
  obtain ⟨h1, h2, h3, -⟩ := payload_arith hT hw
  rw [payload_size_eq_some, hd]
  have : (c1 * c2 + w - 1) / w ≤ c1 * c2 + w - 1 := by nlinarith
  exact ⟨⟨by omega, by omega⟩, ⟨by omega, by omega⟩, ⟨by omega, by omega⟩, by omega,
    by omega, by omega, rfl⟩

theorem thread_range_eq_some {c1 c2 p i : Int} {r : Int × Int} :
    thread_range c1 c2 p i = some r ↔
      (INT32_MIN ≤ i * p ∧ i * p ≤ INT32_MAX) ∧ (INT32_MIN ≤ i + 1 ∧ i + 1 ≤ INT32_MAX) ∧
      (INT32_MIN ≤ (i + 1) * p ∧ (i + 1) * p ≤ INT32_MAX) ∧
      (INT32_MIN ≤ c1 * c2 ∧ c1 * c2 ≤ INT32_MAX) ∧
      r = (i * p, min (c1 * c2) ((i + 1) * p)) := by
  unfold thread_range
  simp only [bind, Option.bind_eq_some, checked_eq_some, Option.some.injEq]
  constructor
  · rintro ⟨s, ⟨h1, h2, rfl⟩, a, ⟨h3, h4, rfl⟩, e, ⟨h5, h6, rfl⟩, t, ⟨h7, h8, rfl⟩, rfl⟩
    exact ⟨⟨h1, h2⟩, ⟨h3, h4⟩, ⟨h5, h6⟩, ⟨h7, h8⟩, rfl⟩
  · rintro ⟨⟨h1, h2⟩, ⟨h3, h4⟩, ⟨h5, h6⟩, ⟨h7, h8⟩, rfl⟩
    exact ⟨_, ⟨h1, h2, rfl⟩, _, ⟨h3, h4, rfl⟩, _, ⟨h5, h6, rfl⟩, _, ⟨h7, h8, rfl⟩, rfl⟩

/-- Whatever the spawning loop returns, it is one range per iteration, given by
the closed formulas. -/
theorem spawn_ranges_spec {c1 c2 p : Int} :
    ∀ (n : Nat) (rs : List (Int × Int)), spawn_ranges c1 c2 p n = some rs →
      rs.length = n ∧
      ∀ i : Nat, i < n → rs[i]? = some ((i : Int) * p, min (c1 * c2) (((i : Int) + 1) * p)) := by
  intro n
  induction n with
  | zero =>
    intro rs h
    simp only [spawn_ranges, Option.some.injEq] at h
    subst h
    simp
  | succ k ih =>
    intro rs h
    simp only [spawn_ranges, bind, Option.bind_eq_some, Option.some.injEq] at h
    obtain ⟨rs0, h0, r, hr, rfl⟩ := h
    obtain ⟨hl, hi⟩ := ih rs0 h0
    have hr2 := (thread_range_eq_some.1 hr).2.2.2.2
    refine ⟨by simp [hl], ?_⟩
    intro i hik
    by_cases hlt : i < k
    · rw [List.getElem?_append_left (by omega)]
      exact hi i hlt
    · have : i = k := by omega
      subst this
      rw [List.getElem?_append_right (by omega), hl]
      simp [hr2]

/-- The spawning loop is defined when every product it forms is representable. -/
theorem spawn_ranges_some {c1 c2 p : Int} (hp : 0 ≤ p)
    (hT : INT32_MIN ≤ c1 * c2 ∧ c1 * c2 ≤ INT32_MAX) :
    ∀ n : Nat, (n : Int) * p ≤ INT32_MAX → (n : Int) ≤ INT32_MAX →
      ∃ rs, spawn_ranges c1 c2 p n = some rs := by
  have hmax : INT32_MAX = 2147483647 := rfl
  have hmin : INT32_MIN = -2147483648 := rfl
  intro n
  induction n with
  | zero => intro _ _; exact ⟨[], rfl⟩
  | succ k ih =>
    intro h1 h2
    push_cast at h1 h2
    have hk0 : (0 : Int) ≤ (k : Int) := Int.ofNat_nonneg k
    have hkp : 0 ≤ (k : Int) * p := Int.mul_nonneg hk0 hp
    have hle : (k : Int) * p ≤ ((k : Int) + 1) * p := by nlinarith
    obtain ⟨rs, hrs⟩ := ih (by omega) (by omega)
    have hr : thread_range c1 c2 p (k : Int) =
        some ((k : Int) * p, min (c1 * c2) (((k : Int) + 1) * p)) :=
      thread_range_eq_some.2 ⟨⟨by omega, by omega⟩, ⟨by omega, by omega⟩,
        ⟨by omega, by omega⟩, hT, rfl⟩
    exact ⟨rs ++ [((k : Int) * p, min (c1 * c2) (((k : Int) + 1) * p))],
      by simp [spawn_ranges, hrs, hr]⟩

/-- Closed form of the ranges for at least one worker: whatever
`run_parallel_ranges` returns is one range per worker, range `i` being
`[i * p, min(total, (i + 1) * p))` with `p = ⌈total / num_threads⌉`. -/
theorem run_parallel_ranges_spec {c1 c2 w : Int} {rs : List (Int × Int)}
    (hT : 0 ≤ c1 * c2) (hw : 1 ≤ w) (h : run_parallel_ranges c1 c2 w = some rs) :
    c1 * c2 + w ≤ INT32_MAX ∧ rs.length = w.toNat ∧
    ∀ i : Nat, (i : Int) < w →
      rs[i]? = some ((i : Int) * ((c1 * c2 + w - 1) / w),
        min (c1 * c2) (((i : Int) + 1) * ((c1 * c2 + w - 1) / w))) := by
  simp only [run_parallel_ranges, bind, Option.bind_eq_some] at h
  obtain ⟨p, hp, hs⟩ := h
  have hp2 := payload_size_eq_some.1 hp
  have hd : Int.tdiv (c1 * c2 + w - 1) w = (c1 * c2 + w - 1) / w :=
    Int.tdiv_eq_ediv (by omega) (by omega)
  have hpe : p = (c1 * c2 + w - 1) / w := by rw [← hd]; exact hp2.2.2.2.2.2.2
  subst hpe
  obtain ⟨hl, hi⟩ := spawn_ranges_spec _ _ hs
  exact ⟨hp2.2.1.2, hl, fun i hiw => hi i (by omega)⟩

/-- The ranges are defined whenever `total + num_threads` is representable. -/
theorem run_parallel_ranges_some {c1 c2 w : Int} (hT : 0 ≤ c1 * c2) (hw : 1 ≤ w)
    (hr : c1 * c2 + w ≤ INT32_MAX) : ∃ rs, run_parallel_ranges c1 c2 w = some rs := by
  have hmax : INT32_MAX = 2147483647 := rfl
  have hmin : INT32_MIN = -2147483648 := rfl
  obtain ⟨h1, h2, h3, -⟩ := payload_arith hT hw
  have hwn : ((w.toNat : Nat) : Int) = w := Int.toNat_of_nonneg (by omega)
  obtain ⟨rs, hrs⟩ := @spawn_ranges_some c1 c2 _ h1 ⟨by omega, by omega⟩ w.toNat
    (by rw [hwn]; omega) (by rw [hwn]; omega)
  exact ⟨rs, by simp [run_parallel_ranges, payload_size_pos hT hw hr, hrs]⟩

/-- Consecutive loops: `[a, b)` followed by `[b, c)` is `[a, c)`. -/
theorem loop_indices_append {a b c : Int} (hab : a ≤ b) (hbc : b ≤ c) :
    loop_indices a b ++ loop_indices b c = loop_indices a c := by
  unfold loop_indices
  have h : (c - a).toNat = (b - a).toNat + (c - b).toNat := by omega
  rw [h, List.range_add, List.map_append, List.map_map]
  congr 1
  apply List.map_congr_left
  intro d _
  simp only [Function.comp]
  push_cast
  omega

theorem loop_indices_empty {a b : Int} (h : b ≤ a) : loop_indices a b = [] := by
  unfold loop_indices
  have : (b - a).toNat = 0 := by omega
  simp [this]

theorem mem_loop_indices {a b k : Int} : k ∈ loop_indices a b ↔ a ≤ k ∧ k < b := by
  unfold loop_indices
  simp only [List.mem_map, List.mem_range]
  constructor
  · rintro ⟨d, hd, rfl⟩
    omega
  · rintro ⟨h1, h2⟩
    exact ⟨(k - a).toNat, by omega, by omega⟩

/-- The list of the first `n` ranges with payload `p`, as `spawn_ranges`
produces them. -/
theorem spawn_flatMap {T p : Int} (hT : 0 ≤ T) (hp : 0 ≤ p) :
    ∀ n : Nat, ((List.range n).map
      (fun i : Nat => ((i : Int) * p, min T (((i : Int) + 1) * p)))).flatMap
        (fun r => loop_indices r.1 r.2) = loop_indices 0 (min T ((n : Int) * p)) := by
  intro n
  induction n with
  | zero =>
    simp [loop_indices_empty, hT]
  | succ k ih =>
    rw [List.range_succ, List.map_append, List.flatMap_append, ih]
    simp only [List.map_cons, List.map_nil, List.flatMap_cons, List.flatMap_nil,
      List.append_nil]
    have hk0 : (0 : Int) ≤ (k : Int) := Int.ofNat_nonneg k
    have hkp : 0 ≤ (k : Int) * p := Int.mul_nonneg hk0 hp
    have hle : (k : Int) * p ≤ ((k : Int) + 1) * p := by nlinarith
    push_cast
    by_cases hc : (k : Int) * p ≤ T
    · rw [min_eq_right hc]
      exact loop_indices_append hkp (le_min hc hle)
    · have hc2 : T < (k : Int) * p := by omega
      rw [min_eq_left (by omega), min_eq_left (by omega : T ≤ ((k : Int) + 1) * p),
        loop_indices_empty (by omega : T ≤ (k : Int) * p)]
      simp

/-- Visiting the ranges of all workers in spawn order visits the flat indices
`0, 1, …, total - 1`, each once and in increasing order. -/
theorem ranges_flatMap {c1 c2 w : Int} {rs : List (Int × Int)}
    (hT : 0 ≤ c1 * c2) (hw : 1 ≤ w) (h : run_parallel_ranges c1 c2 w = some rs) :
    rs.flatMap (fun r => loop_indices r.1 r.2) = loop_indices 0 (c1 * c2) := by
  obtain ⟨-, hl, hi⟩ := run_parallel_ranges_spec hT hw h
  obtain ⟨h1, h2, -, -⟩ := payload_arith hT hw
  have hwn : ((w.toNat : Nat) : Int) = w := Int.toNat_of_nonneg (by omega)
  have hrs : rs = (List.range w.toNat).map (fun i : Nat =>
      ((i : Int) * ((c1 * c2 + w - 1) / w),
        min (c1 * c2) (((i : Int) + 1) * ((c1 * c2 + w - 1) / w)))) := by
    apply List.ext_getElem?
    intro i
    by_cases hiw : i < w.toNat
    · rw [hi i (by omega)]
      simp [List.getElem?_map, List.getElem?_range hiw]
    · rw [List.getElem?_eq_none (by omega), List.getElem?_eq_none (by simp; omega)]
  rw [hrs, spawn_flatMap hT h1, hwn, min_eq_left h2]

/-- A loop nest over a list of ranges is one loop over the concatenated
indices. -/
theorem foldlM_ranges {σ : Type} (body : σ → Int → Option σ) :
    ∀ (rs : List (Int × Int)) (st : σ),
      rs.foldlM (fun s r => (loop_indices r.1 r.2).foldlM body s) st =
        (rs.flatMap (fun r => loop_indices r.1 r.2)).foldlM body st := by
  intro rs
  induction rs with
  | nil => intro st; rfl
  | cons r rs ih =>
    intro st
    rw [List.foldlM_cons, List.flatMap_cons, List.foldlM_append]
    congr 1
    funext s
    exact ih s

/-! ## Loops over the flat index space -/

theorem loop_indices_succ {n : Int} (hn : 0 ≤ n) :
    loop_indices 0 (n + 1) = loop_indices 0 n ++ [n] := by
  rw [← loop_indices_append hn (by omega : n ≤ n + 1)]
  congr 1
  unfold loop_indices
  have : (n + 1 - n).toNat = 1 := by omega
  rw [this]
  simp [List.range_succ]

/-- Loop invariant, partial form: if the loop over `[0, T)` returns, the
invariant holds at `T`. -/
theorem loop_inv {σ : Type} (body : σ → Int → Option σ) (Inv : Int → σ → Prop) {T : Int}
    (hT : 0 ≤ T)
    (hstep : ∀ k s s', 0 ≤ k → k < T → Inv k s → body s k = some s' → Inv (k + 1) s')
    {s0 s' : σ} (h0 : Inv 0 s0) (h : (loop_indices 0 T).foldlM body s0 = some s') :
    Inv T s' := by
  have key : ∀ n : Nat, (n : Int) ≤ T → ∀ s, (loop_indices 0 (n : Int)).foldlM body s0 = some s →
      Inv (n : Int) s := by
    intro n
    induction n with
    | zero =>
      intro _ s hs
      simp only [Nat.cast_zero, loop_indices_empty (le_refl (0 : Int)), List.foldlM_nil] at hs
      cases hs
      exact h0
    | succ k ih =>
      intro hk s hs
      push_cast at hk hs ⊢
      rw [loop_indices_succ (Int.ofNat_nonneg k), List.foldlM_append] at hs
      simp only [bind, Option.bind_eq_some, List.foldlM_cons, List.foldlM_nil] at hs
      obtain ⟨m, hm, s2, hs2, e⟩ := hs
      simp only [pure, Option.some.injEq] at e
      subst e
      exact hstep _ _ _ (Int.ofNat_nonneg k) (by omega) (ih (by omega) m hm) hs2
  have := key T.toNat (by omega) s' (by rw [Int.toNat_of_nonneg hT]; exact h)
  rwa [Int.toNat_of_nonneg hT] at this

/-- Loop invariant, total form: if every iteration is defined on states
satisfying the invariant, the loop over `[0, T)` returns and the invariant
holds at `T`. -/
theorem loop_total {σ : Type} (body : σ → Int → Option σ) (Inv : Int → σ → Prop) {T : Int}
    (hT : 0 ≤ T)
    (hstep : ∀ k s, 0 ≤ k → k < T → Inv k s → ∃ s', body s k = some s' ∧ Inv (k + 1) s')
    {s0 : σ} (h0 : Inv 0 s0) :
    ∃ s', (loop_indices 0 T).foldlM body s0 = some s' ∧ Inv T s' := by
  have key : ∀ n : Nat, (n : Int) ≤ T →
      ∃ s, (loop_indices 0 (n : Int)).foldlM body s0 = some s ∧ Inv (n : Int) s := by
    intro n
    induction n with
    | zero =>
      intro _
      exact ⟨s0, by simp [loop_indices_empty (le_refl (0 : Int))], h0⟩
    | succ k ih =>
      intro hk
      push_cast at hk ⊢
      obtain ⟨m, hm, hI⟩ := ih (by omega)
      obtain ⟨s2, hs2, hI2⟩ := hstep _ m (Int.ofNat_nonneg k) (by omega) hI
      refine ⟨s2, ?_, hI2⟩
      rw [loop_indices_succ (Int.ofNat_nonneg k), List.foldlM_append, hm]
      simp [hs2]
  have := key T.toNat (by omega)
  rwa [Int.toNat_of_nonneg hT] at this

/-- With at least one worker, `run_parallel` over a loop body is the single
loop over all flat indices. -/
theorem run_parallel_eq_loop {σ : Type} (body : σ → Int → Option σ) {c1 c2 w : Int}
    (hT : 0 ≤ c1 * c2) (hw : 1 ≤ w) (st : σ) :
    run_parallel c1 c2 w (fun s e x => (loop_indices s e).foldlM body x) st =
      (run_parallel_ranges c1 c2 w).bind
        (fun _ => (loop_indices 0 (c1 * c2)).foldlM body st) := by
  unfold run_parallel
  cases h : run_parallel_ranges c1 c2 w with
  | none => rfl
  | some rs =>
    simp only [bind, Option.bind]
    rw [foldlM_ranges body rs st, ranges_flatMap hT hw h]

/-- Without workers (`num_threads ≤ 0`) `run_parallel` calls nothing. -/
theorem run_parallel_nonpos {σ : Type} (proc : Int → Int → σ → Option σ) {c1 c2 w : Int}
    (hw : w ≤ 0) (st : σ) :
    run_parallel c1 c2 w proc st = (payload_size c1 c2 w).bind (fun _ => some st) := by
  unfold run_parallel run_parallel_ranges
  have : w.toNat = 0 := by omega
  rw [this]
  cases payload_size c1 c2 w with
  | none => rfl
  | some p => simp [spawn_ranges]

/-! ## One iteration of each pass -/

theorem harvestine_step_eq (W : Collaborators) (c1 c2 : Int → Coord) {n k : Int}
    (hn : 1 ≤ n) (hk0 : 0 ≤ k) (hk : k < n * n) (hT : n * n ≤ INT32_MAX) (st : EngineState) :
    harvestine_step W c1 c2 n st k =
      (toInt32 (geodesic W c1 c2 (k / n) (k % n))).bind fun h =>
        some { st with haversineDistances := fun q => if q = k then h else st.haversineDistances q } := by
  obtain ⟨hd, hm, -⟩ := idiv_imod_flat hn hk0 hk hT
  simp only [harvestine_step, hd, hm, geodesic, bind, Option.bind]

theorem osrm_step_eq (W : Collaborators) (c1 c2 : Int → Coord) {n k : Int}
    (hn : 1 ≤ n) (hk0 : 0 ≤ k) (hk : k < n * n) (hT : n * n ≤ INT32_MAX) (st : EngineState) :
    osrm_step W c1 c2 n st k =
      if st.travel_times (k / n) (k % n) = INT32_MAX then
        (resolved (W.Route (c1 (k / n)) (c2 (k % n))) (st.haversineDistances k)).bind fun r =>
          some { st with
            travel_distances := set_cell st.travel_distances (k / n) (k % n) r.1
            travel_times := set_cell st.travel_times (k / n) (k % n) r.2
            queries := st.queries ++ [(c1 (k / n), c2 (k % n))] }
      else some st := by
  obtain ⟨hd, hm, -⟩ := idiv_imod_flat hn hk0 hk hT
  simp only [osrm_step, hd, hm, bind, Option.bind]
  by_cases h1 : st.travel_times (k / n) (k % n) = INT32_MAX
  · simp only [h1, if_true]
    unfold resolved
    cases hR : W.Route (c1 (k / n)) (c2 (k % n)) with
    | Ok d t =>
      simp only []
      by_cases h2 : d = 0 ∨ t = 0
      · simp only [h2, if_true]
        cases hrd : toInt32 ((st.haversineDistances k : ℚ) * (3 / 2)) with
        | none => simp
        | some rd =>
          cases hrt : toInt32 ((rd : ℚ) / 14) <;> simp [hrt]
      · simp only [h2, if_false]
        cases hrd : toInt32 d with
        | none => simp
        | some rd =>
          cases hrt : toInt32 t <;> simp [hrt]
    | Error c m =>
      simp only []
      cases hrd : checked (st.haversineDistances k * 2) with
      | none => simp
      | some rd =>
        cases hrt : toInt32 ((rd : ℚ) / 12) <;> simp [hrt]
  · simp only [h1, if_false]

/-! ## The two passes of `osrmEngine` -/

/-- With at least one worker, `osrmEngine` on an `n × n` problem is: compute
the ranges, then one loop of `harvestine_step` over all flat indices, then one
loop of `osrm_step` over all flat indices. -/
theorem osrmEngine_eq (W : Collaborators) (td tt : Int → Int → Int) (c1 c2 : Int → Coord)
    {n w : Int} (hw : 1 ≤ w) :
    osrmEngine W td tt n n c1 c2 w =
      (run_parallel_ranges n n w).bind fun _ =>
        ((loop_indices 0 (n * n)).foldlM (harvestine_step W c1 c2 n)
          { travel_distances := td, travel_times := tt,
            haversineDistances := fun _ => 0, queries := [] }).bind fun s1 =>
          (loop_indices 0 (n * n)).foldlM (osrm_step W c1 c2 n) s1 := by
  have hT : 0 ≤ n * n := by nlinarith
  have hmax : INT32_MAX = 2147483647 := rfl
  have hmin : INT32_MIN = -2147483648 := rfl
  have hp1 : harvestine_proc W c1 c2 n =
      fun s e x => (loop_indices s e).foldlM (harvestine_step W c1 c2 n) x := rfl
  have hp2 : osrm_proc W c1 c2 n =
      fun s e x => (loop_indices s e).foldlM (osrm_step W c1 c2 n) x := rfl
  unfold osrmEngine
  rw [hp1, hp2]
  cases hrs : run_parallel_ranges n n w with
  | none =>
    by_cases hc : n * n ≤ INT32_MAX
    · rw [checked_of_range (by omega) hc]
      simp only [bind, Option.bind, if_neg (not_lt.2 hT)]
      rw [run_parallel_eq_loop _ hT hw, hrs]
      rfl
    · have : checked (n * n) = none := by
        unfold checked
        rw [if_neg (fun h => hc h.2)]
      rw [this]
      rfl
  | some rs =>
    obtain ⟨hr, -, -⟩ := run_parallel_ranges_spec hT hw hrs
    rw [checked_of_range (by omega) (by omega)]
    simp only [bind, Option.bind, if_neg (not_lt.2 hT)]
    rw [run_parallel_eq_loop _ hT hw, hrs]
    simp only [Option.bind]
    cases h1 : (loop_indices 0 (n * n)).foldlM (harvestine_step W c1 c2 n)
        { travel_distances := td, travel_times := tt,
          haversineDistances := fun _ => 0, queries := [] } with
    | none => rfl
    | some s1 =>
      simp only []
      rw [run_parallel_eq_loop _ hT hw, hrs]
      rfl

theorem harvest_step_inv (W : Collaborators) (c1 c2 : Int → Coord) {n : Int} (hn : 1 ≤ n)
    (hT : n * n ≤ INT32_MAX) (st0 : EngineState) (k : Int) (s s' : EngineState)
    (hk0 : 0 ≤ k) (hk : k < n * n) (hI : HarvestInv W c1 c2 n st0 k s)
    (h : harvestine_step W c1 c2 n s k = some s') : HarvestInv W c1 c2 n st0 (k + 1) s' := by
  rw [harvestine_step_eq W c1 c2 hn hk0 hk hT, Option.bind_eq_some] at h
  obtain ⟨hv, hhv, e⟩ := h
  simp only [Option.some.injEq] at e
  subst e
  obtain ⟨h1, h2, h3, h4⟩ := hI
  refine ⟨h1, h2, h3, ?_⟩
  intro q hq0 hq
  by_cases hqk : q = k
  · subst hqk
    simpa using hhv
  · simp only [if_neg hqk]
    exact h4 q hq0 (by omega)

theorem osrm_step_inv (W : Collaborators) (c1 c2 : Int → Coord) {n : Int} (hn : 1 ≤ n)
    (hT : n * n ≤ INT32_MAX) (s1 : EngineState) (k : Int) (s s' : EngineState)
    (hk0 : 0 ≤ k) (hk : k < n * n) (hI : OsrmInv W c1 c2 n s1 k s)
    (h : osrm_step W c1 c2 n s k = some s') : OsrmInv W c1 c2 n s1 (k + 1) s' := by
  have hmax : INT32_MAX = 2147483647 := rfl
  obtain ⟨h1, h2, h3⟩ := hI
  obtain ⟨hkd, hkt⟩ := h2 k (le_refl k) hk
  rw [osrm_step_eq W c1 c2 hn hk0 hk hT] at h
  by_cases hdiag : k / n = k % n
  · -- a diagonal cell holds 0 and is skipped
    have htt : s.travel_times (k / n) (k % n) ≠ INT32_MAX := by
      rw [hkt]
      simp [initial_matrix, hdiag, hmax]
    rw [if_neg htt] at h
    simp only [Option.some.injEq] at h
    subst h
    refine ⟨h1, fun q hq1 hq2 => h2 q (by omega) hq2, ?_⟩
    intro q hq0 hq
    by_cases hqk : q = k
    · subst hqk
      rw [if_pos hdiag, hkd, hkt]
      simp [initial_matrix, hdiag]
    · exact h3 q hq0 (by omega)
  · have htt : s.travel_times (k / n) (k % n) = INT32_MAX := by
      rw [hkt]
      simp [initial_matrix, hdiag]
    rw [if_pos htt, Option.bind_eq_some] at h
    obtain ⟨r, hr, e⟩ := h
    simp only [Option.some.injEq] at e
    subst e
    have hne : ∀ q, q ≠ k → ¬ (q / n = k / n ∧ q % n = k % n) := fun q hqk hc =>
      hqk (flat_index_inj hc.1 hc.2)
    refine ⟨h1, ?_, ?_⟩
    · intro q hq1 hq2
      have hqk : q ≠ k := by omega
      simp only [set_cell, if_neg (hne q hqk)]
      exact h2 q (by omega) hq2
    · intro q hq0 hq
      by_cases hqk : q = k
      · subst hqk
        rw [if_neg hdiag]
        simp only [set_cell, and_self, if_true]
        rw [← h1]
        exact hr
      · simp only [set_cell, if_neg (hne q hqk)]
        exact h3 q hq0 (by omega)

/-- An iteration of the routing pass is defined when the value pair of its
cell is. -/
theorem osrm_step_defined (W : Collaborators) (c1 c2 : Int → Coord) {n : Int} (hn : 1 ≤ n)
    (hT : n * n ≤ INT32_MAX) (s1 : EngineState) (k : Int) (s : EngineState)
    (hk0 : 0 ≤ k) (hk : k < n * n) (hI : OsrmInv W c1 c2 n s1 k s)
    (hres : k / n ≠ k % n →
      ∃ r, resolved (W.Route (c1 (k / n)) (c2 (k % n))) (s1.haversineDistances k) = some r) :
    ∃ s', osrm_step W c1 c2 n s k = some s' := by
  rw [osrm_step_eq W c1 c2 hn hk0 hk hT]
  by_cases htt : s.travel_times (k / n) (k % n) = INT32_MAX
  · rw [if_pos htt]
    have hdiag : k / n ≠ k % n := by
      intro hd
      have := (hI.2.1 k (le_refl k) hk).2
      rw [htt] at this
      simp [initial_matrix, hd, INT32_MAX] at this
    obtain ⟨r, hr⟩ := hres hdiag
    rw [hI.1, hr]
    exact ⟨_, rfl⟩
  · rw [if_neg htt]
    exact ⟨s, rfl⟩

/-! ## The fill as a whole -/

/-- Cell by cell description of a fill that returned, with at least one
worker: the diagonal holds zero, and every other cell `(i, j)` holds the pair
that `resolved` gives for the answer of the routing engine on
`(coordinates[i], coordinates[j])` and the converted geodesic distance. -/
theorem fill_cells (W : Collaborators) {N w : Int} (coordinates : Int → Coord)
    {st : EngineState} (hw : 1 ≤ w)
    (h : calculate_osrm_metrics W N coordinates w = some st) :
    1 ≤ N ∧ N * N + w ≤ INT32_MAX ∧
    ∀ i j, 0 ≤ i → i < N → 0 ≤ j → j < N →
      (i = j → st.travel_distances i j = 0 ∧ st.travel_times i j = 0) ∧
      (i ≠ j → ∃ hd, toInt32 (geodesic W coordinates coordinates i j) = some hd ∧
        resolved (W.Route (coordinates i) (coordinates j)) hd =
          some (st.travel_distances i j, st.travel_times i j)) := by
  have hmax : INT32_MAX = 2147483647 := rfl
  unfold calculate_osrm_metrics at h
  by_cases hN : N ≤ 0
  · rw [if_pos hN] at h
    cases h
  rw [if_neg hN, osrmEngine_eq W _ _ _ _ hw] at h
  have hn : 1 ≤ N := by omega
  have hT0 : 0 ≤ N * N := by nlinarith
  simp only [Option.bind_eq_some] at h
  obtain ⟨rs, hrs, s1, hs1, hs2⟩ := h
  obtain ⟨hr, -, -⟩ := run_parallel_ranges_spec hT0 hw hrs
  have hT : N * N ≤ INT32_MAX := by omega
  have hI1 := loop_inv _ (HarvestInv W coordinates coordinates N _) hT0
    (fun k s s' hk0 hk hI hs => harvest_step_inv W coordinates coordinates hn hT _ k s s' hk0 hk hI hs)
    ⟨rfl, rfl, rfl, fun q hq0 hq => absurd hq (by omega)⟩ hs1
  obtain ⟨e1, e2, -, e4⟩ := hI1
  have hI2 := loop_inv _ (OsrmInv W coordinates coordinates N s1) hT0
    (fun k s s' hk0 hk hI hs => osrm_step_inv W coordinates coordinates hn hT s1 k s s' hk0 hk hI hs)
    ⟨rfl, fun q _ _ => by rw [e1, e2]; exact ⟨rfl, rfl⟩, fun q hq0 hq => absurd hq (by omega)⟩ hs2
  refine ⟨hn, hr, ?_⟩
  intro i j hi0 hi hj0 hj
  obtain ⟨hq0, hq, hqi, hqj⟩ := flat_index_of_cell hi0 hi hj0 hj
  have h3 := hI2.2.2 (i * N + j) hq0 hq
  have h4 := e4 (i * N + j) hq0 hq
  rw [hqi, hqj] at h3 h4
  constructor
  · intro hij
    rw [if_pos hij] at h3
    exact h3
  · intro hij
    rw [if_neg hij] at h3
    exact ⟨_, h4, h3⟩

/-- The fill returns when no `int` operation leaves the representable range:
`N * N + max_threads` is representable, every geodesic distance converts, and
the value pair of every non-diagonal cell is defined. -/
theorem fill_returns (W : Collaborators) {N w : Int} (coordinates : Int → Coord)
    (hn : 1 ≤ N) (hw : 1 ≤ w) (hr : N * N + w ≤ INT32_MAX)
    (hdef : ∀ i j, 0 ≤ i → i < N → 0 ≤ j → j < N →
      ∃ hd, toInt32 (geodesic W coordinates coordinates i j) = some hd ∧
        (i ≠ j → ∃ r, resolved (W.Route (coordinates i) (coordinates j)) hd = some r)) :
    ∃ st, calculate_osrm_metrics W N coordinates w = some st := by
  have hT0 : 0 ≤ N * N := by nlinarith
  have hT : N * N ≤ INT32_MAX := by omega
  obtain ⟨rs, hrs⟩ := run_parallel_ranges_some hT0 hw hr
  unfold calculate_osrm_metrics
  rw [if_neg (by omega), osrmEngine_eq W _ _ _ _ hw, hrs]
  simp only [Option.bind]
  have hcell : ∀ k, 0 ≤ k → k < N * N →
      0 ≤ k / N ∧ k / N < N ∧ 0 ≤ k % N ∧ k % N < N := fun k hk0 hk =>
    (idiv_imod_flat hn hk0 hk hT).2.2
  obtain ⟨s1, hs1, hI1⟩ := loop_total (harvestine_step W coordinates coordinates N)
    (HarvestInv W coordinates coordinates N
      { travel_distances := initial_matrix, travel_times := initial_matrix,
        haversineDistances := fun _ => 0, queries := [] }) hT0
    (fun k s hk0 hk hI => by
      obtain ⟨a, b, c, d⟩ := hcell k hk0 hk
      obtain ⟨hd, hhd, -⟩ := hdef _ _ a b c d
      have hs : ∃ s', harvestine_step W coordinates coordinates N s k = some s' := by
        rw [harvestine_step_eq W coordinates coordinates hn hk0 hk hT, hhd]
        exact ⟨_, rfl⟩
      obtain ⟨s', hs'⟩ := hs
      exact ⟨s', hs', harvest_step_inv W coordinates coordinates hn hT _ k s s' hk0 hk hI hs'⟩)
    ⟨rfl, rfl, rfl, fun q hq0 hq => absurd hq (by omega)⟩
  rw [hs1]
  simp only []
  obtain ⟨e1, e2, -, e4⟩ := hI1
  obtain ⟨s2, hs2, -⟩ := loop_total (osrm_step W coordinates coordinates N)
    (OsrmInv W coordinates coordinates N s1) hT0
    (fun k s hk0 hk hI => by
      obtain ⟨a, b, c, d⟩ := hcell k hk0 hk
      obtain ⟨hd, hhd, hres⟩ := hdef _ _ a b c d
      have hh : s1.haversineDistances k = hd := by
        have := e4 k hk0 hk
        rw [hhd] at this
        exact (Option.some.inj this).symm
      obtain ⟨s', hs'⟩ := osrm_step_defined W coordinates coordinates hn hT s1 k s hk0 hk hI
        (fun hne => by rw [hh]; exact hres hne)
      exact ⟨s', hs', osrm_step_inv W coordinates coordinates hn hT s1 k s s' hk0 hk hI hs'⟩)
    ⟨rfl, fun q _ _ => by rw [e1, e2]; exact ⟨rfl, rfl⟩, fun q hq0 hq => absurd hq (by omega)⟩
  exact ⟨s2, hs2⟩

/-! ## Conversions and the assigned value pair -/

theorem toInt32_eq_some {q : ℚ} {z : Int} :
    toInt32 q = some z ↔ z = truncate q ∧ INT32_MIN ≤ z ∧ z ≤ INT32_MAX := by
  unfold toInt32
  rw [checked_eq_some]
  constructor
  · rintro ⟨h1, h2, rfl⟩
    exact ⟨rfl, h1, h2⟩
  · rintro ⟨rfl, h1, h2⟩
    exact ⟨h1, h2, rfl⟩

theorem truncate_nonneg {q : ℚ} (h : 0 ≤ q) : truncate q = ⌊q⌋ := by
  unfold truncate
  rw [if_pos h]

theorem truncate_intCast (z : Int) : truncate (z : ℚ) = z := by
  unfold truncate
  split_ifs <;> simp

/-- The truncated value lies between `q - 1` and `q + 1`, on the side of zero. -/
theorem truncate_bounds (q : ℚ) :
    (0 ≤ q → 0 ≤ truncate q ∧ (truncate q : ℚ) ≤ q ∧ q < truncate q + 1) ∧
    (q < 0 → truncate q ≤ 0 ∧ q ≤ (truncate q : ℚ) ∧ (truncate q : ℚ) < q + 1) := by
  unfold truncate
  constructor
  · intro h
    rw [if_pos h]
    exact ⟨Int.floor_nonneg.2 h, Int.floor_le q, Int.lt_floor_add_one q⟩
  · intro h
    rw [if_neg (not_le.2 h)]
    refine ⟨?_, Int.le_ceil q, Int.ceil_lt_add_one q⟩
    have : ⌈q⌉ ≤ 0 := Int.ceil_le.2 (by simpa using h.le)
    exact this

/-- A double of absolute value below `2^31` converts to a representable
`int`. -/
theorem toInt32_of_abs_lt {q : ℚ} (h : |q| < 2147483648) : toInt32 q = some (truncate q) := by
  have hmax : INT32_MAX = 2147483647 := rfl
  have hmin : INT32_MIN = -2147483648 := rfl
  rw [toInt32_eq_some]
  obtain ⟨h1, h2⟩ := abs_lt.1 h
  obtain ⟨hp, hn⟩ := truncate_bounds q
  refine ⟨rfl, ?_, ?_⟩
  · rcases le_or_lt 0 q with h0 | h0
    · have := (hp h0).1
      omega
    · have := (hn h0).2.1
      have h3 : (-2147483648 : ℚ) < (truncate q : ℚ) := lt_of_lt_of_le h1 this
      have h4 : (-2147483648 : Int) < truncate q := by exact_mod_cast h3
      omega
  · rcases le_or_lt 0 q with h0 | h0
    · have := (hp h0).2.1
      have h3 : (truncate q : ℚ) < 2147483648 := lt_of_le_of_lt this h2
      have h4 : truncate q < (2147483648 : Int) := by exact_mod_cast h3
      omega
    · have := (hn h0).1
      omega

theorem resolved_ok {d t : ℚ} {h : Int} {r : Int × Int} (hd : d ≠ 0) (ht : t ≠ 0)
    (hr : resolved (RouteOutcome.Ok d t) h = some r) :
    r.1 = truncate d ∧ r.2 = truncate t := by
  have hdt : ¬ (d = 0 ∨ t = 0) := by
    rintro (h1 | h1)
    · exact hd h1
    · exact ht h1
  simp only [resolved, if_neg hdt, Option.bind_eq_some, toInt32_eq_some,
    Option.some.injEq] at hr
  obtain ⟨a, ⟨ha, -, -⟩, b, ⟨hb, -, -⟩, rfl⟩ := hr
  exact ⟨ha, hb⟩

theorem resolved_degenerate {d t : ℚ} {h : Int} {r : Int × Int} (hdt : d = 0 ∨ t = 0)
    (hr : resolved (RouteOutcome.Ok d t) h = some r) :
    r.1 = truncate ((h : ℚ) * (3 / 2)) ∧ r.2 = truncate ((r.1 : ℚ) / 14) := by
  simp only [resolved, if_pos hdt, Option.bind_eq_some, toInt32_eq_some,
    Option.some.injEq] at hr
  obtain ⟨a, ⟨ha, -, -⟩, b, ⟨hb, -, -⟩, rfl⟩ := hr
  exact ⟨ha, hb⟩

theorem resolved_error {c m : String} {h : Int} {r : Int × Int}
    (hr : resolved (RouteOutcome.Error c m) h = some r) :
    r.1 = h * 2 ∧ r.2 = truncate ((r.1 : ℚ) / 12) := by
  simp only [resolved, Option.bind_eq_some, toInt32_eq_some, checked_eq_some,
    Option.some.injEq] at hr
  obtain ⟨a, ⟨-, -, ha⟩, b, ⟨hb, -, -⟩, rfl⟩ := hr
  exact ⟨ha, hb⟩

/-- The value pair is defined for a stored geodesic distance in `[0, 2^30)` and
an `Ok` answer with components below `2^31` in absolute value. -/
theorem resolved_defined {o : RouteOutcome} {h : Int} (h0 : 0 ≤ h) (h1 : h < 1073741824)
    (ho : ∀ d t, o = RouteOutcome.Ok d t → |d| < 2147483648 ∧ |t| < 2147483648) :
    ∃ r, resolved o h = some r := by
  have hmax : INT32_MAX = 2147483647 := rfl
  have hmin : INT32_MIN = -2147483648 := rfl
  have hq0 : (0 : ℚ) ≤ (h : ℚ) := by exact_mod_cast h0
  have hq1 : (h : ℚ) < 1073741824 := by exact_mod_cast h1
  have hdiv : ∀ (a : Int) (c : ℚ), 0 ≤ a → a ≤ INT32_MAX → 1 ≤ c →
      toInt32 ((a : ℚ) / c) = some (truncate ((a : ℚ) / c)) := by
    intro a c ha0 ha1 hc
    apply toInt32_of_abs_lt
    have ha0q : (0 : ℚ) ≤ (a : ℚ) := by exact_mod_cast ha0
    have ha1q : (a : ℚ) ≤ 2147483647 := by
      have : a ≤ (2147483647 : Int) := by omega
      exact_mod_cast this
    have hc0 : (0 : ℚ) < c := by linarith
    rw [abs_of_nonneg (div_nonneg ha0q hc0.le)]
    calc (a : ℚ) / c ≤ (a : ℚ) / 1 := div_le_div_of_nonneg_left ha0q (by norm_num) hc
      _ = a := by simp
      _ < 2147483648 := by linarith
  cases o with
  | Ok d t =>
    obtain ⟨hd, ht⟩ := ho d t rfl
    unfold resolved
    by_cases hdt : d = 0 ∨ t = 0
    · have hx : |(h : ℚ) * (3 / 2)| < 2147483648 := by
        rw [abs_of_nonneg (by positivity)]
        linarith
      have hx0 : (0 : ℚ) ≤ (h : ℚ) * (3 / 2) := by positivity
      obtain ⟨e1, e2, e3⟩ := toInt32_eq_some.1 (toInt32_of_abs_lt hx)
      have e4 := ((truncate_bounds _).1 hx0).1
      simp only [if_pos hdt, toInt32_of_abs_lt hx, Option.some_bind,
        hdiv _ 14 e4 e3 (by norm_num)]
      exact ⟨_, rfl⟩
    · simp only [if_neg hdt, toInt32_of_abs_lt hd, toInt32_of_abs_lt ht, Option.some_bind]
      exact ⟨_, rfl⟩
  | Error c m =>
    unfold resolved
    simp only [checked_of_range (by omega : INT32_MIN ≤ h * 2) (by omega), Option.some_bind,
      hdiv (h * 2) 12 (by omega) (by omega) (by norm_num)]
    exact ⟨_, rfl⟩

/-- The fill returns on every input within the bounds `InRange`. -/
theorem fill_returns_of_bounds (W : Collaborators) {N w : Int} (coordinates : Int → Coord)
    (hn : 1 ≤ N) (hw : 1 ≤ w) (hb : InRange W N coordinates w) :
    ∃ st, calculate_osrm_metrics W N coordinates w = some st := by
  obtain ⟨hr, hcells⟩ := hb
  apply fill_returns W coordinates hn hw hr
  intro i j hi0 hi hj0 hj
  obtain ⟨⟨hg0, hg1⟩, hOk⟩ := hcells i j hi0 hi hj0 hj
  have habs : |geodesic W coordinates coordinates i j| < 2147483648 := by
    rw [abs_of_nonneg hg0]
    linarith
  obtain ⟨hp, -⟩ := truncate_bounds (geodesic W coordinates coordinates i j)
  obtain ⟨t0, t1, -⟩ := hp hg0
  have ht : truncate (geodesic W coordinates coordinates i j) < 1073741824 := by
    have : (truncate (geodesic W coordinates coordinates i j) : ℚ) < 1073741824 :=
      lt_of_le_of_lt t1 hg1
    exact_mod_cast this
  exact ⟨_, toInt32_of_abs_lt habs, fun _ => resolved_defined t0 ht hOk⟩

/-! ## Facts used by the claims on the fill -/

/-- Both components of a defined value pair are representable. -/
theorem resolved_range {o : RouteOutcome} {h : Int} {r : Int × Int}
    (hr : resolved o h = some r) :
    (INT32_MIN ≤ r.1 ∧ r.1 ≤ INT32_MAX) ∧ (INT32_MIN ≤ r.2 ∧ r.2 ≤ INT32_MAX) := by
  cases o with
  | Ok d t =>
    simp only [resolved] at hr
    split_ifs at hr <;>
    · simp only [Option.bind_eq_some, toInt32_eq_some, Option.some.injEq] at hr
      obtain ⟨a, ⟨-, ha1, ha2⟩, b, ⟨-, hb1, hb2⟩, rfl⟩ := hr
      exact ⟨⟨ha1, ha2⟩, ⟨hb1, hb2⟩⟩
  | Error c m =>
    simp only [resolved, Option.bind_eq_some, toInt32_eq_some, checked_eq_some,
      Option.some.injEq] at hr
    obtain ⟨a, ⟨ha1, ha2, rfl⟩, b, ⟨-, hb1, hb2⟩, rfl⟩ := hr
    exact ⟨⟨ha1, ha2⟩, ⟨hb1, hb2⟩⟩

/-- The quotient of a representable `int` by a double `c ≥ 2` never converts
to `INT32_MAX`. -/
theorem truncate_div_ne_max {a : Int} {c : ℚ} (ha : a ≤ INT32_MAX) (hc : 2 ≤ c) :
    truncate ((a : ℚ) / c) ≠ INT32_MAX := by
  have hmax : INT32_MAX = 2147483647 := rfl
  intro he
  have hc0 : (0 : ℚ) < c := by linarith
  have haq : (a : ℚ) ≤ 2147483647 := by
    have : a ≤ (2147483647 : Int) := by omega
    exact_mod_cast this
  obtain ⟨hp, hn⟩ := truncate_bounds ((a : ℚ) / c)
  rcases le_or_lt 0 ((a : ℚ) / c) with h0 | h0
  · have h1 := (hp h0).2.1
    rw [he, hmax] at h1
    have h2 : (2147483647 : ℚ) * c ≤ a := by
      have := (le_div_iff₀ hc0).1 (by exact_mod_cast h1 : (2147483647 : ℚ) ≤ (a : ℚ) / c)
      exact this
    nlinarith
  · have h1 := (hn h0).1
    omega

/-- Three halves of a stored geodesic distance convert to `INT32_MAX` only
for the distance 1431655765. -/
theorem truncate_three_halves_ne_max {h : Int} (hh : h ≠ 1431655765) :
    truncate ((h : ℚ) * (3 / 2)) ≠ INT32_MAX := by
  have hmax : INT32_MAX = 2147483647 := rfl
  intro he
  obtain ⟨hp, hn⟩ := truncate_bounds ((h : ℚ) * (3 / 2))
  rcases le_or_lt 0 ((h : ℚ) * (3 / 2)) with h0 | h0
  · obtain ⟨-, h1, h2⟩ := hp h0
    rw [he, hmax] at h1 h2
    push_cast at h1 h2
    have h3 : (4294967294 : ℚ) ≤ 3 * (h : ℚ) := by linarith
    have h4 : 3 * (h : ℚ) < 4294967296 := by linarith
    have h5 : (4294967294 : Int) ≤ 3 * h := by exact_mod_cast h3
    have h6 : 3 * h < (4294967296 : Int) := by exact_mod_cast h4
    omega
  · have h1 := (hn h0).1
    omega

/-- A fill without workers that returns has changed no cell. -/
theorem fill_nonpos (W : Collaborators) {N w : Int} (coordinates : Int → Coord)
    {st : EngineState} (hw : w ≤ 0) (h : calculate_osrm_metrics W N coordinates w = some st) :
    1 ≤ N ∧ st.travel_distances = initial_matrix ∧ st.travel_times = initial_matrix := by
  unfold calculate_osrm_metrics at h
  by_cases hN : N ≤ 0
  · rw [if_pos hN] at h
    cases h
  rw [if_neg hN] at h
  unfold osrmEngine at h
  simp only [bind, Option.bind_eq_some] at h
  obtain ⟨size, -, h⟩ := h
  split_ifs at h
  simp only [Option.bind_eq_some, run_parallel_nonpos _ hw, Option.some.injEq] at h
  obtain ⟨s1, ⟨p, -, rfl⟩, p', -, rfl⟩ := h
  exact ⟨by omega, rfl, rfl⟩

/-- The diagonal of a fill that returned holds zero, for any number of
workers. -/
theorem fill_diagonal (W : Collaborators) {N w : Int} (coordinates : Int → Coord)
    {st : EngineState} (h : calculate_osrm_metrics W N coordinates w = some st) :
    1 ≤ N ∧ ∀ i, 0 ≤ i → i < N → st.travel_distances i i = 0 ∧ st.travel_times i i = 0 := by
  by_cases hw : 1 ≤ w
  · obtain ⟨hn, -, hc⟩ := fill_cells W coordinates hw h
    exact ⟨hn, fun i hi0 hi => (hc i i hi0 hi hi0 hi).1 rfl⟩
  · obtain ⟨hn, e1, e2⟩ := fill_nonpos W coordinates (by omega) h
    refine ⟨hn, fun i _ _ => ?_⟩
    rw [e1, e2]
    simp [initial_matrix]

/-- In a scenario over locations on a line, two different locations are `g`
meters apart. -/
theorem scenario_geodesic (g : ℚ) (o : RouteOutcome) {step : ℚ} (hs : step ≠ 0) (i j : Int) :
    geodesic (scenario g o) (line_coordinates step) (line_coordinates step) i j =
      if i = j then 0 else g := by
  simp only [geodesic, scenario, line_coordinates, true_and]
  by_cases hij : i = j
  · simp [hij]
  · have : ¬ (4 + (i : ℚ) * step = 4 + (j : ℚ) * step) := by
      intro he
      have h1 : (i : ℚ) * step = (j : ℚ) * step := by linarith
      have h2 : (i : ℚ) = (j : ℚ) := mul_right_cancel₀ hs h1
      exact hij (by exact_mod_cast h2)
    simp [hij, this]

/-- A scenario is within the bounds `InRange` when its distance and its answer
are. -/
theorem scenario_inRange {g : ℚ} {o : RouteOutcome} {step : ℚ} (hs : step ≠ 0) {N w : Int}
    (hr : N * N + w ≤ INT32_MAX) (hg0 : 0 ≤ g) (hg1 : g < 1073741824)
    (ho : ∀ d t, o = RouteOutcome.Ok d t → |d| < 2147483648 ∧ |t| < 2147483648) :
    InRange (scenario g o) N (line_coordinates step) w := by
  refine ⟨hr, fun i j _ _ _ _ => ⟨?_, fun d t h => ho d t h⟩⟩
  rw [scenario_geodesic g o hs]
  split_ifs
  · exact ⟨le_refl 0, by norm_num⟩
  · exact ⟨hg0, hg1⟩

/-! ## Claims on the partition -/

/-- The ranges of any two different workers do not meet, and a flat index lies
in some range exactly when it is in `[0, total)`. -/
theorem ranges_disjoint_cover {c1 c2 w : Int} {rs : List (Int × Int)}
    (hT : 0 ≤ c1 * c2) (hw : 1 ≤ w) (h : run_parallel_ranges c1 c2 w = some rs) :
    (∀ (i j : Nat) (r r' : Int × Int), i ≠ j → rs[i]? = some r → rs[j]? = some r' →
      ∀ k, ¬ ((r.1 ≤ k ∧ k < r.2) ∧ (r'.1 ≤ k ∧ k < r'.2))) ∧
    (∀ k, (∃ r ∈ rs, r.1 ≤ k ∧ k < r.2) ↔ (0 ≤ k ∧ k < c1 * c2)) := by
  obtain ⟨-, hl, hi⟩ := run_parallel_ranges_spec hT hw h
  obtain ⟨hp0, hp1, -, hp3⟩ := payload_arith hT hw
  have hwn : ((w.toNat : Nat) : Int) = w := Int.toNat_of_nonneg (by omega)
  have hidx : ∀ (i : Nat) (r : Int × Int), rs[i]? = some r → (i : Int) < w ∧
      r = ((i : Int) * ((c1 * c2 + w - 1) / w),
        min (c1 * c2) (((i : Int) + 1) * ((c1 * c2 + w - 1) / w))) := by
    intro i r hr
    have hlt : i < rs.length := by
      by_contra hc
      rw [List.getElem?_eq_none (by omega)] at hr
      cases hr
    have hiw : (i : Int) < w := by omega
    rw [hi i hiw] at hr
    exact ⟨hiw, (Option.some.inj hr).symm⟩
  have hlt : ∀ (i j : Nat) (r r' : Int × Int), i < j → rs[i]? = some r → rs[j]? = some r' →
      ∀ k, ¬ ((r.1 ≤ k ∧ k < r.2) ∧ (r'.1 ≤ k ∧ k < r'.2)) := by
    intro i j r r' hij hr hr' k hk
    obtain ⟨-, rfl⟩ := hidx i r hr
    obtain ⟨-, rfl⟩ := hidx j r' hr'
    obtain ⟨⟨-, h2⟩, ⟨h3, -⟩⟩ := hk
    simp only at h2 h3
    have h4 : k < ((i : Int) + 1) * ((c1 * c2 + w - 1) / w) := lt_of_lt_of_le h2 (min_le_right _ _)
    have h5 : ((i : Int) + 1) ≤ (j : Int) := by omega
    have h6 : ((i : Int) + 1) * ((c1 * c2 + w - 1) / w) ≤ (j : Int) * ((c1 * c2 + w - 1) / w) :=
      Int.mul_le_mul_of_nonneg_right h5 hp0
    omega
  refine ⟨?_, ?_⟩
  · intro i j r r' hij hr hr' k hk
    rcases Nat.lt_or_gt_of_ne hij with hlt' | hgt
    · exact hlt i j r r' hlt' hr hr' k hk
    · exact hlt j i r' r hgt hr' hr k ⟨hk.2, hk.1⟩
  · intro k
    constructor
    · rintro ⟨r, hr, h1, h2⟩
      obtain ⟨i, hi'⟩ := List.mem_iff_getElem?.1 hr
      obtain ⟨-, rfl⟩ := hidx i r hi'
      simp only at h1 h2
      have h3 : 0 ≤ (i : Int) * ((c1 * c2 + w - 1) / w) :=
        Int.mul_nonneg (Int.ofNat_nonneg i) hp0
      have h4 : k < c1 * c2 := lt_of_lt_of_le h2 (min_le_left _ _)
      omega
    · rintro ⟨hk0, hk⟩
      have hp : 1 ≤ (c1 * c2 + w - 1) / w := hp3 (by omega)
      have hq0 : 0 ≤ k / ((c1 * c2 + w - 1) / w) := Int.ediv_nonneg hk0 hp0
      have hqw : k / ((c1 * c2 + w - 1) / w) < w :=
        Int.ediv_lt_of_lt_mul (by omega) (by omega)
      have hcast : (((k / ((c1 * c2 + w - 1) / w)).toNat : Nat) : Int) =
          k / ((c1 * c2 + w - 1) / w) := Int.toNat_of_nonneg hq0
      have hget := hi (k / ((c1 * c2 + w - 1) / w)).toNat (by omega)
      rw [hcast] at hget
      refine ⟨_, List.mem_iff_getElem?.2 ⟨_, hget⟩, ?_, ?_⟩
      · exact Int.ediv_mul_le k (by omega)
      · exact lt_min hk (Int.lt_ediv_add_one_mul_self k (by omega))

/-- Claim C1.  For every `N ≥ 1` and `worker_count ≥ 1` (also `worker_count > N*N`):
`run_parallel` computes its ranges whenever `N*N + worker_count` is a
representable `int`, and whenever it computes them there is one range per
worker, range `i` is `[i*payload, min(N*N, (i+1)*payload))` with
`payload = (N*N + worker_count - 1) / worker_count`, the ranges are pairwise
disjoint, their union is exactly `{0, …, N*N - 1}`, and every flat index (hence
every matrix cell `(k / N, k % N)`) lies in the range of exactly one worker. -/
theorem partition_disjoint_cover (N worker_count : Int) (hN : 1 ≤ N)
    (hw : 1 ≤ worker_count) :
    (N * N + worker_count ≤ INT32_MAX → ∃ rs, run_parallel_ranges N N worker_count = some rs) ∧
    ∀ rs, run_parallel_ranges N N worker_count = some rs →
      rs.length = worker_count.toNat ∧
      (∀ i : Nat, (i : Int) < worker_count →
        rs[i]? = some ((i : Int) * ((N * N + worker_count - 1) / worker_count),
          min (N * N) (((i : Int) + 1) * ((N * N + worker_count - 1) / worker_count)))) ∧
      (∀ (i j : Nat) (r r' : Int × Int), i ≠ j → rs[i]? = some r → rs[j]? = some r' →
        ∀ k, ¬ ((r.1 ≤ k ∧ k < r.2) ∧ (r'.1 ≤ k ∧ k < r'.2))) ∧
      (∀ k, (∃ r ∈ rs, r.1 ≤ k ∧ k < r.2) ↔ (0 ≤ k ∧ k < N * N)) ∧
      (∀ k, 0 ≤ k → k < N * N →
        (∃! i : Nat, ∃ r, rs[i]? = some r ∧ r.1 ≤ k ∧ k < r.2) ∧
        0 ≤ k / N ∧ k / N < N ∧ 0 ≤ k % N ∧ k % N < N) := by
  have hT : 0 ≤ N * N := by nlinarith
  refine ⟨fun hr => run_parallel_ranges_some hT hw hr, ?_⟩
  intro rs h
  obtain ⟨hr, hl, hi⟩ := run_parallel_ranges_spec hT hw h
  obtain ⟨hdis, hcov⟩ := ranges_disjoint_cover hT hw h
  refine ⟨hl, hi, hdis, hcov, ?_⟩
  intro k hk0 hk
  refine ⟨?_, (idiv_imod_flat hN hk0 hk (by have : INT32_MAX = 2147483647 := rfl; omega)).2.2⟩
  obtain ⟨r, hr, h1, h2⟩ := (hcov k).2 ⟨hk0, hk⟩
  obtain ⟨i, hi'⟩ := List.mem_iff_getElem?.1 hr
  refine ⟨i, ⟨r, hi', h1, h2⟩, ?_⟩
  rintro j ⟨r', hj, h3, h4⟩
  by_contra hne
  exact hdis j i r' r hne hj hi' k ⟨⟨h3, h4⟩, ⟨h1, h2⟩⟩

/-- Witness of C1 at `N = 4`, `worker_count = 3`. -/
theorem partition_disjoint_cover_witness :
    (1 : Int) ≤ 4 ∧ (1 : Int) ≤ 3 ∧
    run_parallel_ranges 4 4 3 = some [(0, 6), (6, 12), (12, 16)] ∧
    ((4 * 4 + 3 ≤ INT32_MAX → ∃ rs, run_parallel_ranges 4 4 3 = some rs) ∧
    ∀ rs, run_parallel_ranges 4 4 3 = some rs →
      rs.length = (3 : Int).toNat ∧
      (∀ i : Nat, (i : Int) < 3 →
        rs[i]? = some ((i : Int) * ((4 * 4 + 3 - 1) / 3),
          min (4 * 4) (((i : Int) + 1) * ((4 * 4 + 3 - 1) / 3)))) ∧
      (∀ (i j : Nat) (r r' : Int × Int), i ≠ j → rs[i]? = some r → rs[j]? = some r' →
        ∀ k, ¬ ((r.1 ≤ k ∧ k < r.2) ∧ (r'.1 ≤ k ∧ k < r'.2))) ∧
      (∀ k, (∃ r ∈ rs, r.1 ≤ k ∧ k < r.2) ↔ (0 ≤ k ∧ k < 4 * 4)) ∧
      (∀ k, 0 ≤ k → k < 4 * 4 →
        (∃! i : Nat, ∃ r, rs[i]? = some r ∧ r.1 ≤ k ∧ k < r.2) ∧
        0 ≤ k / 4 ∧ k / 4 < 4 ∧ 0 ≤ k % 4 ∧ k % 4 < 4)) :=
  ⟨by decide, by decide, by decide, partition_disjoint_cover 4 3 (by decide) (by decide)⟩

theorem length_loop_indices (a b : Int) : (loop_indices a b).length = (b - a).toNat := by
  simp [loop_indices]

/-- The payload is the ceiling of `total / num_threads`. -/
theorem payload_eq_ceil {T w : Int} (hT : 0 ≤ T) (hw : 1 ≤ w) :
    ⌈(T : ℚ) / (w : ℚ)⌉ = (T + w - 1) / w := by
  obtain ⟨-, h2, h3, -⟩ := payload_arith hT hw
  have hwq : (0 : ℚ) < (w : ℚ) := by exact_mod_cast (by omega : (0 : Int) < w)
  rw [Int.ceil_eq_iff]
  constructor
  · rw [lt_div_iff₀ hwq]
    have : ((T + w - 1) / w - 1) * w < T := by nlinarith
    exact_mod_cast this
  · rw [div_le_iff₀ hwq]
    have : T ≤ (T + w - 1) / w * w := by nlinarith
    exact_mod_cast this

/-- Claim C8, as amended.  For every `N ≥ 1` and `worker_count ≥ 1`, with
`p = ⌈N*N / worker_count⌉` the payload: every chunk has `0 ≤ start_i`,
`0 ≤ end_i ≤ N*N` and at most `p` flat indices; chunk `i` has exactly `p`
indices when `(i+1)*p ≤ N*N`, has `start_i ≤ end_i` when `i*p ≤ N*N`, and is
empty when `N*N ≤ i*p`.  When `(worker_count - 1)*p ≤ N*N`, every chunk other
than the last has exactly `p` indices and `start_i ≤ end_i` for every worker.
For `N = 4`, `worker_count = 3` the chunks are `[0,6)`, `[6,12)`, `[12,16)`, of
sizes 6, 6, 4, covering exactly `0..15`.  The ranges are computed whenever
`N*N + worker_count` is a representable `int`. -/
theorem chunk_sizes (N worker_count : Int) (hN : 1 ≤ N) (hw : 1 ≤ worker_count) :
    ⌈((N * N : Int) : ℚ) / (worker_count : ℚ)⌉ = (N * N + worker_count - 1) / worker_count ∧
    (N * N + worker_count ≤ INT32_MAX → ∃ rs, run_parallel_ranges N N worker_count = some rs) ∧
    (∀ rs, run_parallel_ranges N N worker_count = some rs →
      (∀ (i : Nat) (r : Int × Int), rs[i]? = some r →
        0 ≤ r.1 ∧ 0 ≤ r.2 ∧ r.2 ≤ N * N ∧
        ((loop_indices r.1 r.2).length : Int) ≤ (N * N + worker_count - 1) / worker_count ∧
        (((i : Int) + 1) * ((N * N + worker_count - 1) / worker_count) ≤ N * N →
          ((loop_indices r.1 r.2).length : Int) = (N * N + worker_count - 1) / worker_count) ∧
        ((i : Int) * ((N * N + worker_count - 1) / worker_count) ≤ N * N → r.1 ≤ r.2) ∧
        (N * N ≤ (i : Int) * ((N * N + worker_count - 1) / worker_count) →
          (loop_indices r.1 r.2).length = 0)) ∧
      ((worker_count - 1) * ((N * N + worker_count - 1) / worker_count) ≤ N * N →
        ∀ (i : Nat) (r : Int × Int), rs[i]? = some r → r.1 ≤ r.2 ∧
          ((i : Int) + 1 < worker_count →
            ((loop_indices r.1 r.2).length : Int) =
              (N * N + worker_count - 1) / worker_count))) ∧
    (run_parallel_ranges 4 4 3 = some [(0, 6), (6, 12), (12, 16)] ∧
      [(0, 6), (6, 12), (12, 16)].map (fun r : Int × Int => (loop_indices r.1 r.2).length) =
        [6, 6, 4] ∧
      [(0, 6), (6, 12), (12, 16)].flatMap (fun r : Int × Int => loop_indices r.1 r.2) =
        [0, 1, 2, 3, 4, 5, 6, 7, 8, 9, 10, 11, 12, 13, 14, 15]) := by
  have hT : 0 ≤ N * N := Int.mul_nonneg (by omega) (by omega)
  refine ⟨payload_eq_ceil hT hw, fun hr => run_parallel_ranges_some hT hw hr, ?_,
    by decide, by decide, by decide⟩
  intro rs h
  obtain ⟨-, hl, hi⟩ := run_parallel_ranges_spec hT hw h
  obtain ⟨hp0, hp1, -, -⟩ := payload_arith hT hw
  have hidx : ∀ (i : Nat) (r : Int × Int), rs[i]? = some r → (i : Int) < worker_count ∧
      r = ((i : Int) * ((N * N + worker_count - 1) / worker_count),
        min (N * N) (((i : Int) + 1) * ((N * N + worker_count - 1) / worker_count))) := by
    intro i r hr
    have hlt : i < rs.length := by
      by_contra hc
      rw [List.getElem?_eq_none (by omega)] at hr
      cases hr
    have hiw : (i : Int) < worker_count := by omega
    rw [hi i hiw] at hr
    exact ⟨hiw, (Option.some.inj hr).symm⟩
  constructor
  · intro i r hr
    obtain ⟨-, rfl⟩ := hidx i r hr
    simp only [length_loop_indices]
    have hX : 0 ≤ (i : Int) * ((N * N + worker_count - 1) / worker_count) :=
      Int.mul_nonneg (Int.ofNat_nonneg i) hp0
    have hY : ((i : Int) + 1) * ((N * N + worker_count - 1) / worker_count) =
        (i : Int) * ((N * N + worker_count - 1) / worker_count) +
          (N * N + worker_count - 1) / worker_count := by ring
    rw [hY]
    generalize (i : Int) * ((N * N + worker_count - 1) / worker_count) = X at hX ⊢
    generalize (N * N + worker_count - 1) / worker_count = p at hp0 ⊢
    generalize N * N = T at hT ⊢
    refine ⟨hX, ?_, ?_, ?_, ?_, ?_, ?_⟩
    · exact le_min hT (by omega)
    · exact min_le_left _ _
    · rcases le_total T (X + p) with hc | hc
      · rw [min_eq_left hc]; omega
      · rw [min_eq_right hc]; omega
    · intro hc
      rw [min_eq_right hc]; omega
    · intro hc
      exact le_min hc (by omega)
    · intro hc
      rw [min_eq_left (by omega)]; omega
  · intro hlast i r hr
    obtain ⟨hiw, rfl⟩ := hidx i r hr
    simp only [length_loop_indices]
    have hi0 : (0 : Int) ≤ (i : Int) := Int.ofNat_nonneg i
    have hX : 0 ≤ (i : Int) * ((N * N + worker_count - 1) / worker_count) :=
      Int.mul_nonneg hi0 hp0
    have hXl : (i : Int) * ((N * N + worker_count - 1) / worker_count) ≤
        (worker_count - 1) * ((N * N + worker_count - 1) / worker_count) :=
      Int.mul_le_mul_of_nonneg_right (by omega) hp0
    have hY : ((i : Int) + 1) * ((N * N + worker_count - 1) / worker_count) =
        (i : Int) * ((N * N + worker_count - 1) / worker_count) +
          (N * N + worker_count - 1) / worker_count := by ring
    constructor
    · exact le_min (by omega) (by rw [hY]; omega)
    · intro hnl
      have hYl : ((i : Int) + 1) * ((N * N + worker_count - 1) / worker_count) ≤
          (worker_count - 1) * ((N * N + worker_count - 1) / worker_count) :=
        Int.mul_le_mul_of_nonneg_right (by omega) hp0
      rw [min_eq_right (by omega), hY]
      omega

/-- Witness of C8 at `N = 4`, `worker_count = 7`. -/
theorem chunk_sizes_witness :
    (1 : Int) ≤ 4 ∧ (1 : Int) ≤ 7 ∧
    ∀ rs, run_parallel_ranges 4 4 7 = some rs →
      ∀ (i : Nat) (r : Int × Int), rs[i]? = some r →
        0 ≤ r.1 ∧ 0 ≤ r.2 ∧ r.2 ≤ 4 * 4 ∧
        ((loop_indices r.1 r.2).length : Int) ≤ (4 * 4 + 7 - 1) / 7 :=
  ⟨by decide, by decide, fun rs h i r hr =>
    let t := ((chunk_sizes 4 7 (by decide) (by decide)).2.2.1 rs h).1 i r hr
    ⟨t.1, t.2.1, t.2.2.1, t.2.2.2.1⟩⟩

/-- Counterexample to C8 as stated.  For `N = 4` and `worker_count = 7` the payload is
`⌈16 / 7⌉ = 3`; worker 5, which is not the last one, gets `[15, 16)` with one
index instead of three, and the last worker 6 gets `start = 18 > end = 16`. -/
theorem chunk_sizes_counterexample :
    run_parallel_ranges 4 4 7 =
      some [(0, 3), (3, 6), (6, 9), (9, 12), (12, 15), (15, 16), (18, 16)] ∧
    ((4 : Int) * 4 + 7 - 1) / 7 = 3 ∧
    (loop_indices 15 16).length = 1 ∧
    ¬ ((18 : Int) ≤ 16) := by
  refine ⟨by decide, by decide, by decide, by decide⟩

/-- After a fill with at least one worker, a non-diagonal cell holds the value
pair of its answer and of its truncated geodesic distance. -/
theorem fill_cell (W : Collaborators) {N w : Int} (coordinates : Int → Coord)
    {st : EngineState} (hw : 1 ≤ w) (h : calculate_osrm_metrics W N coordinates w = some st)
    {i j : Int} (hi0 : 0 ≤ i) (hi : i < N) (hj0 : 0 ≤ j) (hj : j < N) (hij : i ≠ j) :
    resolved (W.Route (coordinates i) (coordinates j))
        (truncate (geodesic W coordinates coordinates i j)) =
      some (st.travel_distances i j, st.travel_times i j) := by
  obtain ⟨-, -, hc⟩ := fill_cells W coordinates hw h
  obtain ⟨hd, h1, h2⟩ := (hc i j hi0 hi hj0 hj).2 hij
  rw [← (toInt32_eq_some.1 h1).1]
  exact h2

/-! ## Claims on the fill -/

/-- Claim C2, as amended.  For every `N ≥ 1`, every `worker_count ≥ 1` and every
routing client none of whose `Ok{d, t}` answers with `d ≠ 0`, `t ≠ 0` converts
to `INT32_MAX` in a component, over locations none of whose geodesic distances
converts to 1431655765: the fill returns whenever the bounds `InRange` hold,
and after it returns no cell of the distance matrix or of the duration matrix
equals `INT32_MAX`. -/
theorem no_sentinel_left (W : Collaborators) (N worker_count : Int) (coordinates : Int → Coord)
    (hw : 1 ≤ worker_count)
    (hOk : ∀ i j d t, 0 ≤ i → i < N → 0 ≤ j → j < N → i ≠ j →
      W.Route (coordinates i) (coordinates j) = RouteOutcome.Ok d t → d ≠ 0 → t ≠ 0 →
      truncate d ≠ INT32_MAX ∧ truncate t ≠ INT32_MAX)
    (hgeo : ∀ i j, 0 ≤ i → i < N → 0 ≤ j → j < N → i ≠ j →
      truncate (geodesic W coordinates coordinates i j) ≠ 1431655765) :
    (1 ≤ N → InRange W N coordinates worker_count →
      ∃ st, calculate_osrm_metrics W N coordinates worker_count = some st) ∧
    ∀ st, calculate_osrm_metrics W N coordinates worker_count = some st →
      ∀ i j, 0 ≤ i → i < N → 0 ≤ j → j < N →
        st.travel_distances i j ≠ INT32_MAX ∧ st.travel_times i j ≠ INT32_MAX := by
  have hmax : INT32_MAX = 2147483647 := rfl
  refine ⟨fun hn hb => fill_returns_of_bounds W coordinates hn hw hb, ?_⟩
  intro st h i j hi0 hi hj0 hj
  by_cases hij : i = j
  · subst hij
    obtain ⟨e1, e2⟩ := (fill_diagonal W coordinates h).2 i hi0 hi
    rw [e1, e2]
    exact ⟨by omega, by omega⟩
  have hc := fill_cell W coordinates hw h hi0 hi hj0 hj hij
  obtain ⟨⟨-, hr1⟩, -⟩ := resolved_range hc
  simp only at hr1
  cases hR : W.Route (coordinates i) (coordinates j) with
  | Ok d t =>
    rw [hR] at hc
    by_cases hdt : d = 0 ∨ t = 0
    · obtain ⟨e1, e2⟩ := resolved_degenerate hdt hc
      simp only at e1 e2
      refine ⟨?_, ?_⟩
      · rw [e1]
        exact truncate_three_halves_ne_max (hgeo i j hi0 hi hj0 hj hij)
      · rw [e2]
        exact truncate_div_ne_max hr1 (by norm_num)
    · have hd : d ≠ 0 := fun e => hdt (Or.inl e)
      have ht : t ≠ 0 := fun e => hdt (Or.inr e)
      obtain ⟨e1, e2⟩ := resolved_ok hd ht hc
      simp only at e1 e2
      rw [e1, e2]
      exact hOk i j d t hi0 hi hj0 hj hij hR hd ht
  | Error c m =>
    rw [hR] at hc
    obtain ⟨e1, e2⟩ := resolved_error hc
    simp only at e1 e2
    refine ⟨by omega, ?_⟩
    rw [e2]
    exact truncate_div_ne_max hr1 (by norm_num)

/-- Claim C3, as amended.  For every non-diagonal pair `(i, j)`, if the routing
client answers `Ok{d, t}` with `d ≠ 0` and `t ≠ 0` for that pair, then the
fill (with at least one worker) returns whenever the bounds `InRange` hold, and
after it returns `distance[i][j]` is `d` and `duration[i][j]` is `t`, each
converted to `int` by discarding its fractional part; they are `d` and `t`
unchanged when these are integers. -/
theorem routed_values_truncated (W : Collaborators) (N worker_count : Int)
    (coordinates : Int → Coord) (hw : 1 ≤ worker_count) (i j : Int)
    (hi0 : 0 ≤ i) (hi : i < N) (hj0 : 0 ≤ j) (hj : j < N) (hij : i ≠ j) (d t : ℚ)
    (hR : W.Route (coordinates i) (coordinates j) = RouteOutcome.Ok d t)
    (hd : d ≠ 0) (ht : t ≠ 0) :
    (InRange W N coordinates worker_count →
      ∃ st, calculate_osrm_metrics W N coordinates worker_count = some st) ∧
    ∀ st, calculate_osrm_metrics W N coordinates worker_count = some st →
      st.travel_distances i j = truncate d ∧ st.travel_times i j = truncate t ∧
      (∀ z : Int, d = (z : ℚ) → st.travel_distances i j = z) ∧
      (∀ z : Int, t = (z : ℚ) → st.travel_times i j = z) := by
  refine ⟨fun hb => fill_returns_of_bounds W coordinates (by omega) hw hb, ?_⟩
  intro st h
  have hc := fill_cell W coordinates hw h hi0 hi hj0 hj hij
  rw [hR] at hc
  obtain ⟨e1, e2⟩ := resolved_ok hd ht hc
  simp only at e1 e2
  refine ⟨e1, e2, ?_, ?_⟩
  · intro z hz
    rw [e1, hz, truncate_intCast]
  · intro z hz
    rw [e2, hz, truncate_intCast]

/-- Claim C4, as amended.  For every non-diagonal pair `(i, j)` with geodesic
distance `g`, if the routing client answers `Ok` with distance `0` or duration
`0`, then the fill (with at least one worker) returns whenever the bounds
`InRange` hold, and after it returns
`distance[i][j] = trunc(trunc(g) * 1.5)` and
`duration[i][j] = trunc(distance[i][j] / 14.0)`, whatever the same-location
test answers; in particular both are `0` for two locations less than one meter
apart. -/
theorem degenerate_values (W : Collaborators) (N worker_count : Int)
    (coordinates : Int → Coord) (hw : 1 ≤ worker_count) (i j : Int)
    (hi0 : 0 ≤ i) (hi : i < N) (hj0 : 0 ≤ j) (hj : j < N) (hij : i ≠ j) (d t : ℚ)
    (hR : W.Route (coordinates i) (coordinates j) = RouteOutcome.Ok d t)
    (hdt : d = 0 ∨ t = 0) :
    (InRange W N coordinates worker_count →
      ∃ st, calculate_osrm_metrics W N coordinates worker_count = some st) ∧
    ∀ st, calculate_osrm_metrics W N coordinates worker_count = some st →
      st.travel_distances i j =
        truncate ((truncate (geodesic W coordinates coordinates i j) : ℚ) * (3 / 2)) ∧
      st.travel_times i j = truncate ((st.travel_distances i j : ℚ) / 14) ∧
      (0 ≤ geodesic W coordinates coordinates i j →
        geodesic W coordinates coordinates i j < 1 →
        st.travel_distances i j = 0 ∧ st.travel_times i j = 0) := by
  refine ⟨fun hb => fill_returns_of_bounds W coordinates (by omega) hw hb, ?_⟩
  intro st h
  have hc := fill_cell W coordinates hw h hi0 hi hj0 hj hij
  rw [hR] at hc
  obtain ⟨e1, e2⟩ := resolved_degenerate hdt hc
  simp only at e1 e2
  refine ⟨e1, e2, ?_⟩
  intro hg0 hg1
  have hz : truncate (geodesic W coordinates coordinates i j) = 0 := by
    rw [truncate_nonneg hg0, Int.floor_eq_iff]
    exact ⟨by simpa using hg0, by simpa using hg1⟩
  have hdz : st.travel_distances i j = 0 := by
    rw [e1, hz]
    norm_num [truncate]
  refine ⟨hdz, ?_⟩
  rw [e2, hdz]
  norm_num [truncate]

/-- Claim C5, as amended.  For every non-diagonal pair `(i, j)` with geodesic
distance `g`, if the routing client answers `Error` for that pair, then the
fill (with at least one worker) returns whenever the bounds `InRange` hold, and
after it returns `distance[i][j] = trunc(g) * 2` and
`duration[i][j] = trunc(distance[i][j] / 12.0)`. -/
theorem error_values (W : Collaborators) (N worker_count : Int)
    (coordinates : Int → Coord) (hw : 1 ≤ worker_count) (i j : Int)
    (hi0 : 0 ≤ i) (hi : i < N) (hj0 : 0 ≤ j) (hj : j < N) (hij : i ≠ j) (code message : String)
    (hR : W.Route (coordinates i) (coordinates j) = RouteOutcome.Error code message) :
    (InRange W N coordinates worker_count →
      ∃ st, calculate_osrm_metrics W N coordinates worker_count = some st) ∧
    ∀ st, calculate_osrm_metrics W N coordinates worker_count = some st →
      st.travel_distances i j = truncate (geodesic W coordinates coordinates i j) * 2 ∧
      st.travel_times i j = truncate ((st.travel_distances i j : ℚ) / 12) := by
  refine ⟨fun hb => fill_returns_of_bounds W coordinates (by omega) hw hb, ?_⟩
  intro st h
  have hc := fill_cell W coordinates hw h hi0 hi hj0 hj hij
  rw [hR] at hc
  exact resolved_error hc

/-- Claim C6.  For every `N ≥ 1`, every `worker_count` and every routing
client, after the fill returns, `distance[i][i] = 0` and `duration[i][i] = 0`
for every `i < N`; with at least one worker the fill does return whenever the
bounds `InRange` hold. -/
theorem diagonal_zero (W : Collaborators) (N worker_count : Int) (coordinates : Int → Coord)
    (hN : 1 ≤ N) :
    (1 ≤ worker_count → InRange W N coordinates worker_count →
      ∃ st, calculate_osrm_metrics W N coordinates worker_count = some st) ∧
    ∀ st, calculate_osrm_metrics W N coordinates worker_count = some st →
      ∀ i, 0 ≤ i → i < N → st.travel_distances i i = 0 ∧ st.travel_times i i = 0 :=
  ⟨fun hw hb => fill_returns_of_bounds W coordinates hN hw hb,
    fun _ h => (fill_diagonal W coordinates h).2⟩

/-- Claim C7, the code at `worker_count ≤ 0`.  With two locations and
`max_threads = -1` the fill returns normally, has sent no request, and leaves
`INT32_MAX` in both non-diagonal cells of both matrices; with
`max_threads = 0` the payload computation divides by zero and the run has no
defined result. -/
theorem fill_nonpositive_workers (W : Collaborators) (coordinates : Int → Coord) :
    (∃ st, calculate_osrm_metrics W 2 coordinates (-1) = some st ∧
      st.queries = [] ∧
      st.travel_distances 0 1 = INT32_MAX ∧ st.travel_times 0 1 = INT32_MAX ∧
      st.travel_distances 1 0 = INT32_MAX ∧ st.travel_times 1 0 = INT32_MAX) ∧
    calculate_osrm_metrics W 2 coordinates 0 = none :=
  ⟨⟨_, rfl, rfl, rfl, rfl, rfl, rfl⟩, rfl⟩

/-! ## Witnesses and counterexamples for the claims on the fill -/

/-- In a scenario, the fill over two or three locations returns and the cell
`(i, j)`, `i ≠ j`, holds the value pair of the answer `o` and of `trunc(g)`. -/
theorem scenario_fill (g : ℚ) (o : RouteOutcome) (step : ℚ) (hs : step ≠ 0) (N w : Int)
    (hn : 1 ≤ N) (hw : 1 ≤ w) (hr : N * N + w ≤ INT32_MAX) (hg0 : 0 ≤ g)
    (hg1 : g < 1073741824)
    (ho : ∀ d t, o = RouteOutcome.Ok d t → |d| < 2147483648 ∧ |t| < 2147483648) :
    ∃ st, calculate_osrm_metrics (scenario g o) N (line_coordinates step) w = some st ∧
      ∀ i j, 0 ≤ i → i < N → 0 ≤ j → j < N → i ≠ j →
        resolved o (truncate g) = some (st.travel_distances i j, st.travel_times i j) := by
  obtain ⟨st, h⟩ := fill_returns_of_bounds (scenario g o) (line_coordinates step) hn hw
    (scenario_inRange hs hr hg0 hg1 ho)
  refine ⟨st, h, ?_⟩
  intro i j hi0 hi hj0 hj hij
  have hc := fill_cell (scenario g o) (line_coordinates step) hw h hi0 hi hj0 hj hij
  rw [scenario_geodesic g o hs, if_neg hij] at hc
  exact hc

/-- Counterexample to C2 as stated.  Two locations, one worker, a routing client that
answers `Ok{2147483647, 1}`: the fill returns and `distance[0][1]` equals
`INT32_MAX`. -/
theorem no_sentinel_left_counterexample :
    ∃ st, calculate_osrm_metrics (scenario 1000 (RouteOutcome.Ok 2147483647 1)) 2
        (line_coordinates (143 / 10000)) 1 = some st ∧
      st.travel_distances 0 1 = INT32_MAX := by
  obtain ⟨st, h, hc⟩ := scenario_fill 1000 (RouteOutcome.Ok 2147483647 1)
    (143 / 10000) (by norm_num) 2 1 (by norm_num) (by norm_num)
    (by decide) (by norm_num) (by norm_num)
    (by
      intro d t e
      cases e
      constructor <;> norm_num)
  refine ⟨st, h, ?_⟩
  have e := (resolved_ok (by norm_num) (by norm_num)
    (hc 0 1 (by norm_num) (by norm_num) (by norm_num) (by norm_num) (by norm_num))).1
  simp only at e
  rw [e]
  norm_num [truncate, INT32_MAX]

/-- Witness of C2: two locations 1000 m apart, one worker, every request
answered `Ok{1500, 120}`. -/
theorem no_sentinel_left_witness :
    ∃ st, calculate_osrm_metrics (scenario 1000 (RouteOutcome.Ok 1500 120)) 2
        (line_coordinates (143 / 10000)) 1 = some st ∧
      ∀ i j, 0 ≤ i → i < 2 → 0 ≤ j → j < 2 →
        st.travel_distances i j ≠ INT32_MAX ∧ st.travel_times i j ≠ INT32_MAX := by
  have hs : (143 / 10000 : ℚ) ≠ 0 := by norm_num
  have hthm := no_sentinel_left (scenario 1000 (RouteOutcome.Ok 1500 120)) 2 1
    (line_coordinates (143 / 10000)) (by norm_num)
    (by
      intro i j d t _ _ _ _ _ e _ _
      cases e
      constructor <;> norm_num [truncate, INT32_MAX])
    (by
      intro i j _ _ _ _ hij
      rw [scenario_geodesic _ _ hs, if_neg hij]
      norm_num [truncate])
  obtain ⟨st, h⟩ := hthm.1 (by norm_num)
    (scenario_inRange hs (by decide) (by norm_num) (by norm_num)
      (by
        intro d t e
        cases e
        constructor <;> norm_num))
  exact ⟨st, h, hthm.2 st h⟩

/-- Counterexample to C3 as stated.  Two locations, one worker, a routing client that
answers `Ok{1234.7, 98.4}`: the fill returns with `distance[0][1] = 1234` and
`duration[0][1] = 98`, not the routed values. -/
theorem routed_values_counterexample :
    ∃ st, calculate_osrm_metrics (scenario 1000 (RouteOutcome.Ok (12347 / 10) (492 / 5))) 2
        (line_coordinates (143 / 10000)) 1 = some st ∧
      st.travel_distances 0 1 = 1234 ∧ st.travel_times 0 1 = 98 ∧
      ((st.travel_distances 0 1 : Int) : ℚ) ≠ 12347 / 10 ∧
      ((st.travel_times 0 1 : Int) : ℚ) ≠ 492 / 5 := by
  obtain ⟨st, h, hc⟩ := scenario_fill 1000 (RouteOutcome.Ok (12347 / 10) (492 / 5))
    (143 / 10000) (by norm_num) 2 1 (by norm_num) (by norm_num)
    (by decide) (by norm_num) (by norm_num)
    (by
      intro d t e
      cases e
      constructor <;> norm_num [abs_lt])
  obtain ⟨e1, e2⟩ := resolved_ok (by norm_num) (by norm_num)
    (hc 0 1 (by norm_num) (by norm_num) (by norm_num) (by norm_num) (by norm_num))
  simp only at e1 e2
  have d1 : st.travel_distances 0 1 = 1234 := by
    rw [e1, truncate_nonneg (by norm_num)]
    norm_num [Int.floor_eq_iff]
  have d2 : st.travel_times 0 1 = 98 := by
    rw [e2, truncate_nonneg (by norm_num)]
    norm_num [Int.floor_eq_iff]
  refine ⟨st, h, d1, d2, ?_, ?_⟩
  · rw [d1]; norm_num
  · rw [d2]; norm_num

/-- Witness of C3: two locations, one worker, every request answered
`Ok{1500, 120}`. -/
theorem routed_values_truncated_witness :
    ∃ st, calculate_osrm_metrics (scenario 1000 (RouteOutcome.Ok 1500 120)) 2
        (line_coordinates (143 / 10000)) 1 = some st ∧
      st.travel_distances 0 1 = truncate 1500 ∧ st.travel_times 0 1 = truncate 120 ∧
      (∀ z : Int, (1500 : ℚ) = (z : ℚ) → st.travel_distances 0 1 = z) ∧
      (∀ z : Int, (120 : ℚ) = (z : ℚ) → st.travel_times 0 1 = z) := by
  have hs : (143 / 10000 : ℚ) ≠ 0 := by norm_num
  have hthm := routed_values_truncated (scenario 1000 (RouteOutcome.Ok 1500 120)) 2 1
    (line_coordinates (143 / 10000)) (by norm_num) 0 1 (by norm_num) (by norm_num)
    (by norm_num) (by norm_num) (by norm_num) 1500 120 rfl (by norm_num) (by norm_num)
  obtain ⟨st, h⟩ := hthm.1
    (scenario_inRange hs (by decide) (by norm_num) (by norm_num)
      (by
        intro d t e
        cases e
        constructor <;> norm_num))
  exact ⟨st, h, hthm.2 st h⟩

/-- Counterexample to C4 as stated.  Three locations about 0.7 m apart from one
another, two workers, every request answered `Ok{0, 0}`: for the pair `(1, 2)`
with geodesic distance `g = 0.7` the fill returns `distance = 0`, while
`round(g * 1.5) = 1`. -/
theorem degenerate_values_counterexample :
    ∃ st, calculate_osrm_metrics (scenario (7 / 10) (RouteOutcome.Ok 0 0)) 3
        (line_coordinates (1 / 100000)) 2 = some st ∧
      geodesic (scenario (7 / 10) (RouteOutcome.Ok 0 0)) (line_coordinates (1 / 100000))
        (line_coordinates (1 / 100000)) 1 2 = 7 / 10 ∧
      st.travel_distances 1 2 = 0 ∧ st.travel_times 1 2 = 0 ∧
      round_half_away (7 / 10 * (3 / 2)) = 1 := by
  have hs : (1 / 100000 : ℚ) ≠ 0 := by norm_num
  obtain ⟨st, h, hc⟩ := scenario_fill (7 / 10) (RouteOutcome.Ok 0 0)
    (1 / 100000) hs 3 2 (by norm_num) (by norm_num)
    (by decide) (by norm_num) (by norm_num)
    (by
      intro d t e
      cases e
      constructor <;> norm_num)
  obtain ⟨e1, e2⟩ := resolved_degenerate (Or.inl rfl)
    (hc 1 2 (by norm_num) (by norm_num) (by norm_num) (by norm_num) (by norm_num))
  simp only at e1 e2
  have z : truncate (7 / 10) = 0 := by
    rw [truncate_nonneg (by norm_num)]
    norm_num
  have d1 : st.travel_distances 1 2 = 0 := by
    rw [e1, z]
    norm_num [truncate]
  have d2 : st.travel_times 1 2 = 0 := by
    rw [e2, d1]
    norm_num [truncate]
  refine ⟨st, h, ?_, d1, d2, ?_⟩
  · rw [scenario_geodesic _ _ hs, if_neg (by norm_num)]
  · unfold round_half_away
    rw [if_pos (by norm_num)]
    norm_num [Int.floor_eq_iff]

/-- Witness of C4: the scenario of the counterexample, cell `(1, 2)`. -/
theorem degenerate_values_witness :
    ∃ st, calculate_osrm_metrics (scenario (7 / 10) (RouteOutcome.Ok 0 0)) 3
        (line_coordinates (1 / 100000)) 2 = some st ∧
      st.travel_distances 1 2 =
        truncate ((truncate (geodesic (scenario (7 / 10) (RouteOutcome.Ok 0 0))
          (line_coordinates (1 / 100000)) (line_coordinates (1 / 100000)) 1 2) : ℚ) * (3 / 2)) ∧
      st.travel_times 1 2 = truncate ((st.travel_distances 1 2 : ℚ) / 14) := by
  have hs : (1 / 100000 : ℚ) ≠ 0 := by norm_num
  have hthm := degenerate_values (scenario (7 / 10) (RouteOutcome.Ok 0 0)) 3 2
    (line_coordinates (1 / 100000)) (by norm_num) 1 2 (by norm_num) (by norm_num)
    (by norm_num) (by norm_num) (by norm_num) 0 0 rfl (Or.inl rfl)
  obtain ⟨st, h⟩ := hthm.1
    (scenario_inRange hs (by decide) (by norm_num) (by norm_num)
      (by
        intro d t e
        cases e
        constructor <;> norm_num))
  exact ⟨st, h, (hthm.2 st h).1, (hthm.2 st h).2.1⟩

/-- Counterexample to C5 as stated.  Two locations with geodesic distance
`g = 1000.5`, one worker, every request answered `Error`: the fill returns
`distance[0][1] = 2000` and `duration[0][1] = 166`, while `round(g * 2.0)` is
2001 and `round(g * 2.0 / 12.0)` is 167. -/
theorem error_values_counterexample :
    ∃ st, calculate_osrm_metrics
        (scenario (2001 / 2) (RouteOutcome.Error "NoRoute" "Impossible route between points")) 2
        (line_coordinates (143 / 10000)) 1 = some st ∧
      st.travel_distances 0 1 = 2000 ∧ st.travel_times 0 1 = 166 ∧
      round_half_away (2001 / 2 * 2) = 2001 ∧
      round_half_away (2001 / 2 * 2 / 12) = 167 := by
  have hs : (143 / 10000 : ℚ) ≠ 0 := by norm_num
  obtain ⟨st, h, hc⟩ := scenario_fill (2001 / 2)
    (RouteOutcome.Error "NoRoute" "Impossible route between points")
    (143 / 10000) hs 2 1 (by norm_num) (by norm_num)
    (by decide) (by norm_num) (by norm_num)
    (by
      intro d t e
      cases e)
  obtain ⟨e1, e2⟩ := resolved_error
    (hc 0 1 (by norm_num) (by norm_num) (by norm_num) (by norm_num) (by norm_num))
  simp only at e1 e2
  have z : truncate (2001 / 2) = 1000 := by
    rw [truncate_nonneg (by norm_num)]
    norm_num [Int.floor_eq_iff]
  have d1 : st.travel_distances 0 1 = 2000 := by
    rw [e1, z]
    norm_num
  have d2 : st.travel_times 0 1 = 166 := by
    rw [e2, d1, truncate_nonneg (by norm_num)]
    norm_num [Int.floor_eq_iff]
  refine ⟨st, h, d1, d2, ?_, ?_⟩
  · unfold round_half_away
    rw [if_pos (by norm_num)]
    norm_num [Int.floor_eq_iff]
  · unfold round_half_away
    rw [if_pos (by norm_num)]
    norm_num [Int.floor_eq_iff]

/-- Witness of C5: the scenario of the counterexample, cell `(0, 1)`. -/
theorem error_values_witness :
    ∃ st, calculate_osrm_metrics
        (scenario (2001 / 2) (RouteOutcome.Error "NoRoute" "Impossible route between points")) 2
        (line_coordinates (143 / 10000)) 1 = some st ∧
      st.travel_distances 0 1 =
        truncate (geodesic
          (scenario (2001 / 2) (RouteOutcome.Error "NoRoute" "Impossible route between points"))
          (line_coordinates (143 / 10000)) (line_coordinates (143 / 10000)) 0 1) * 2 ∧
      st.travel_times 0 1 = truncate ((st.travel_distances 0 1 : ℚ) / 12) := by
  have hs : (143 / 10000 : ℚ) ≠ 0 := by norm_num
  have hthm := error_values
    (scenario (2001 / 2) (RouteOutcome.Error "NoRoute" "Impossible route between points")) 2 1
    (line_coordinates (143 / 10000)) (by norm_num) 0 1 (by norm_num) (by norm_num)
    (by norm_num) (by norm_num) (by norm_num) "NoRoute" "Impossible route between points" rfl
  obtain ⟨st, h⟩ := hthm.1
    (scenario_inRange hs (by decide) (by norm_num) (by norm_num)
      (by
        intro d t e
        cases e))
  exact ⟨st, h, hthm.2 st h⟩

/-- Witness of C6: two locations, one worker, every request answered
`Ok{1500, 120}`. -/
theorem diagonal_zero_witness :
    ∃ st, calculate_osrm_metrics (scenario 1000 (RouteOutcome.Ok 1500 120)) 2
        (line_coordinates (143 / 10000)) 1 = some st ∧
      ∀ i, 0 ≤ i → i < 2 → st.travel_distances i i = 0 ∧ st.travel_times i i = 0 := by
  have hs : (143 / 10000 : ℚ) ≠ 0 := by norm_num
  have hthm := diagonal_zero (scenario 1000 (RouteOutcome.Ok 1500 120)) 2 1
    (line_coordinates (143 / 10000)) (by norm_num)
  obtain ⟨st, h⟩ := hthm.1 (by norm_num)
    (scenario_inRange hs (by decide) (by norm_num) (by norm_num)
      (by
        intro d t e
        cases e
        constructor <;> norm_num))
  exact ⟨st, h, hthm.2 st h⟩

/-! ## The sampling loop -/

/-- Invariant rule for the sampling loop: a property of `(coordinates,
attempts)` that survives a rejected candidate and an accepted candidate holds
when the loop ends. -/
theorem sample_loop_inv (fa : FloatArith) (poly : List Coord) (count max_attempts : Int)
    (candidate : Nat → Coord) (Inv : List Coord → Int → Prop)
    (hrej : ∀ cs a, Inv cs a → (cs.length : Int) < count → a < max_attempts → Inv cs (a + 1))
    (hacc : ∀ cs a, Inv cs a → (cs.length : Int) < count → a < max_attempts →
      point_in_polygon fa (candidate a.toNat).1 (candidate a.toNat).2 poly = true →
      near_duplicate fa cs (candidate a.toNat).1 (candidate a.toNat).2 = false →
      Inv (cs ++ [candidate a.toNat]) (a + 1)) :
    ∀ (fuel : Nat) (cs : List Coord) (a : Int), Inv cs a →
      Inv (sample_loop fa poly count max_attempts candidate fuel cs a).1
        (sample_loop fa poly count max_attempts candidate fuel cs a).2 := by
  intro fuel
  induction fuel with
  | zero =>
    intro cs a h
    simpa [sample_loop] using h
  | succ n ih =>
    intro cs a h
    simp only [sample_loop]
    by_cases hc : (cs.length : Int) < count ∧ a < max_attempts
    · rw [if_pos hc]
      by_cases hp : point_in_polygon fa (candidate a.toNat).1 (candidate a.toNat).2 poly = true
      · by_cases hd : near_duplicate fa cs (candidate a.toNat).1 (candidate a.toNat).2 = true
        · simp only [hp, hd, Bool.not_true, if_true, Bool.false_eq_true, if_false]
          exact ih cs (a + 1) (hrej cs a h hc.1 hc.2)
        · simp only [hp, hd, Bool.not_true, Bool.false_eq_true, if_false]
          exact ih _ (a + 1)
            (hacc cs a h hc.1 hc.2 hp (by simpa using hd))
      · simp only [hp, Bool.not_false, if_true]
        exact ih cs (a + 1) (hrej cs a h hc.1 hc.2)
    · rw [if_neg hc]
      exact h

/-- The bound on the number of iterations is never what stops the loop: with
at least `max_attempts - attempts` iterations allowed, the loop ends with the
`while` condition false. -/
theorem sample_loop_exit (fa : FloatArith) (poly : List Coord) (count max_attempts : Int)
    (candidate : Nat → Coord) :
    ∀ (fuel : Nat) (cs : List Coord) (a : Int), max_attempts - a ≤ (fuel : Int) →
      ¬ (((sample_loop fa poly count max_attempts candidate fuel cs a).1.length : Int) < count ∧
        (sample_loop fa poly count max_attempts candidate fuel cs a).2 < max_attempts) := by
  intro fuel
  induction fuel with
  | zero =>
    intro cs a h
    simp only [sample_loop]
    push_cast at h
    omega
  | succ n ih =>
    intro cs a h
    push_cast at h
    simp only [sample_loop]
    by_cases hc : (cs.length : Int) < count ∧ a < max_attempts
    · rw [if_pos hc]
      split_ifs
      · exact ih cs (a + 1) (by omega)
      · exact ih cs (a + 1) (by omega)
      · exact ih _ (a + 1) (by omega)
    · rw [if_neg hc]
      exact hc

/-- What the sampling loop guarantees about its result when started on the
empty list with `attempts = 0`. -/
theorem sample_loop_spec (fa : FloatArith) (poly : List Coord) (count max_attempts : Int)
    (candidate : Nat → Coord) (hcount : 0 ≤ count) (fuel : Nat) :
    let r := sample_loop fa poly count max_attempts candidate fuel [] 0
    (∀ p ∈ r.1, point_in_polygon fa p.1 p.2 poly = true) ∧
    (r.1.length : Int) ≤ count ∧
    r.1.Pairwise (fun p q => ¬ (|fa.sub p.1 q.1| < EPS ∧ |fa.sub p.2 q.2| < EPS)) ∧
    0 ≤ r.2 ∧ r.1.Sublist ((List.range r.2.toNat).map candidate) := by
  have key := sample_loop_inv fa poly count max_attempts candidate
    (fun cs a =>
      (∀ p ∈ cs, point_in_polygon fa p.1 p.2 poly = true) ∧
      (cs.length : Int) ≤ count ∧
      cs.Pairwise (fun p q => ¬ (|fa.sub p.1 q.1| < EPS ∧ |fa.sub p.2 q.2| < EPS)) ∧
      0 ≤ a ∧ cs.Sublist ((List.range a.toNat).map candidate))
    (by
      rintro cs a ⟨h1, h2, h3, h4, h5⟩ _ _
      refine ⟨h1, h2, h3, by omega, ?_⟩
      have : (a + 1).toNat = a.toNat + 1 := by omega
      rw [this, List.range_succ, List.map_append]
      exact h5.trans (List.sublist_append_left _ _))
    (by
      rintro cs a ⟨h1, h2, h3, h4, h5⟩ hlt _ hp hd
      refine ⟨?_, ?_, ?_, by omega, ?_⟩
      · intro p hpm
        rcases List.mem_append.1 hpm with hm | hm
        · exact h1 p hm
        · rw [List.mem_singleton.1 hm]
          exact hp
      · rw [List.length_append]
        simp only [List.length_singleton]
        push_cast
        omega
      · rw [List.pairwise_append]
        refine ⟨h3, List.pairwise_singleton _ _, ?_⟩
        intro p hpm q hq
        rw [List.mem_singleton.1 hq]
        have := (List.any_eq_false.1 hd) p hpm
        simpa using this
      · have : (a + 1).toNat = a.toNat + 1 := by omega
        rw [this, List.range_succ, List.map_append]
        exact h5.append (List.Sublist.refl _))
    fuel [] 0
    ⟨by simp, by simpa using hcount, List.Pairwise.nil, le_refl 0, by simp⟩
  exact key

/-! ## Claims on the sampler -/

/-- For a positive `count` the sampler returns when `count * 1000` is
representable, and what it returns is the result of the loop on the empty
list. -/
theorem sample_eq (fa : FloatArith) (candidate : Nat → Coord) (old : SamplerState)
    {count : Int} (hc : 0 < count) :
    (count * 1000 ≤ INT32_MAX →
      ∃ r, sample_locations_in_belgium fa candidate old count = some r) ∧
    ∀ r, sample_locations_in_belgium fa candidate old count = some r →
      count * 1000 ≤ INT32_MAX ∧
      r.coordinates = (sample_loop fa belgium_poly count (max 10000 (count * 1000)) candidate
        (max 10000 (count * 1000)).toNat [] 0).1 ∧
      r.attempts = (sample_loop fa belgium_poly count (max 10000 (count * 1000)) candidate
        (max 10000 (count * 1000)).toNat [] 0).2 ∧
      r.Number_of_locations = (r.coordinates.length : Int) ∧ r.sampledCoordinates = true := by
  have hmin : INT32_MIN = -2147483648 := rfl
  unfold sample_locations_in_belgium
  rw [if_neg (by omega)]
  constructor
  · intro h
    rw [checked_of_range (by omega) h]
    exact ⟨_, rfl⟩
  · intro r h
    simp only [bind, Option.bind_eq_some, checked_eq_some, Option.some.injEq] at h
    obtain ⟨c, ⟨-, h2, rfl⟩, rfl⟩ := h
    exact ⟨h2, rfl, rfl, rfl, rfl⟩

/-- Claim C9.  For every `count > 0` and every random source, the sampler
returns when `count * 1000` is a representable `int`, and every coordinate it
stores in `coordinates` satisfies `point_in_polygon(lon, lat, belgium_poly)`;
no candidate that fails the test is among them. -/
theorem sampled_points_inside (fa : FloatArith) (candidate : Nat → Coord) (old : SamplerState)
    (count : Int) (hc : 0 < count) :
    (count * 1000 ≤ INT32_MAX →
      ∃ r, sample_locations_in_belgium fa candidate old count = some r) ∧
    ∀ r, sample_locations_in_belgium fa candidate old count = some r →
      (∀ p ∈ r.coordinates, point_in_polygon fa p.1 p.2 belgium_poly = true) ∧
      (∀ k : Nat, point_in_polygon fa (candidate k).1 (candidate k).2 belgium_poly = false →
        candidate k ∉ r.coordinates) := by
  obtain ⟨h1, h2⟩ := sample_eq fa candidate old hc
  refine ⟨h1, ?_⟩
  intro r hr
  obtain ⟨-, e1, -, -, -⟩ := h2 r hr
  have hs := (sample_loop_spec fa belgium_poly count (max 10000 (count * 1000)) candidate
    (by omega) (max 10000 (count * 1000)).toNat).1
  rw [← e1] at hs
  refine ⟨hs, ?_⟩
  intro k hk hmem
  have := hs _ hmem
  rw [hk] at this
  cases this

/-- Witness of C9 at `count = 2`, candidates on the parallel of latitude 51. -/
theorem sampled_points_inside_witness :
    (0 : Int) < 2 ∧
    ((2 * 1000 ≤ INT32_MAX →
      ∃ r, sample_locations_in_belgium exactArith (fun k => (4 + (k : ℚ) / 10, 51))
        ⟨[], 0, false, 0⟩ 2 = some r) ∧
    ∀ r, sample_locations_in_belgium exactArith (fun k => (4 + (k : ℚ) / 10, 51))
        ⟨[], 0, false, 0⟩ 2 = some r →
      (∀ p ∈ r.coordinates, point_in_polygon exactArith p.1 p.2 belgium_poly = true) ∧
      (∀ k : Nat, point_in_polygon exactArith
          ((fun k : Nat => ((4 : ℚ) + (k : ℚ) / 10, (51 : ℚ))) k).1
          ((fun k : Nat => ((4 : ℚ) + (k : ℚ) / 10, (51 : ℚ))) k).2 belgium_poly = false →
        (fun k : Nat => ((4 : ℚ) + (k : ℚ) / 10, (51 : ℚ))) k ∉ r.coordinates)) :=
  ⟨by decide, sampled_points_inside exactArith _ _ 2 (by decide)⟩

/-- Claim C10.  For every `count = k > 0` and every random source, the sampler
returns when `k * 1000` is a representable `int`, and what it returns has at
most `k` points (`Number_of_locations = coordinates.size() ≤ k`), in the order
in which they were drawn and accepted, and no two of them are within `1e-6`
of each other on both axes. -/
theorem sample_bounded_distinct (fa : FloatArith) (candidate : Nat → Coord)
    (old : SamplerState) (k : Int) (hk : 0 < k) :
    (k * 1000 ≤ INT32_MAX → ∃ r, sample_locations_in_belgium fa candidate old k = some r) ∧
    ∀ r, sample_locations_in_belgium fa candidate old k = some r →
      (r.coordinates.length : Int) ≤ k ∧
      r.Number_of_locations = (r.coordinates.length : Int) ∧
      r.coordinates.Sublist ((List.range r.attempts.toNat).map candidate) ∧
      ∀ (i j : Nat) (p q : Coord), i ≠ j →
        r.coordinates[i]? = some p → r.coordinates[j]? = some q →
        ¬ (|fa.sub p.1 q.1| < EPS ∧ |fa.sub p.2 q.2| < EPS) := by
  obtain ⟨h1, h2⟩ := sample_eq fa candidate old hk
  refine ⟨h1, ?_⟩
  intro r hr
  obtain ⟨-, e1, e2, e3, -⟩ := h2 r hr
  obtain ⟨-, s2, s3, -, s5⟩ := sample_loop_spec fa belgium_poly k (max 10000 (k * 1000))
    candidate (by omega) (max 10000 (k * 1000)).toNat
  rw [← e1] at s2 s3 s5
  rw [← e2] at s5
  refine ⟨s2, e3, s5, ?_⟩
  rw [List.pairwise_iff_getElem] at s3
  have hlt : ∀ (i j : Nat) (p q : Coord), i < j →
      r.coordinates[i]? = some p → r.coordinates[j]? = some q →
      ¬ (|fa.sub p.1 q.1| < EPS ∧ |fa.sub p.2 q.2| < EPS) := by
    intro i j p q hij hp hq
    obtain ⟨hi, rfl⟩ := List.getElem?_eq_some.1 hp
    obtain ⟨hj, rfl⟩ := List.getElem?_eq_some.1 hq
    exact s3 i j hi hj hij
  intro i j p q hij hp hq
  rcases Nat.lt_or_gt_of_ne hij with h | h
  · exact hlt i j p q h hp hq
  · have := hlt j i q p h hq hp
    rw [fa.abs_sub_comm q.1 p.1, fa.abs_sub_comm q.2 p.2] at this
    exact this

/-- Witness of C10 at `k = 2`, candidates on the parallel of latitude 51. -/
theorem sample_bounded_distinct_witness :
    (0 : Int) < 2 ∧
    ((2 * 1000 ≤ INT32_MAX →
      ∃ r, sample_locations_in_belgium exactArith (fun k => (4 + (k : ℚ) / 10, 51))
        ⟨[], 0, false, 0⟩ 2 = some r) ∧
    ∀ r, sample_locations_in_belgium exactArith (fun k => (4 + (k : ℚ) / 10, 51))
        ⟨[], 0, false, 0⟩ 2 = some r →
      (r.coordinates.length : Int) ≤ 2 ∧
      r.Number_of_locations = (r.coordinates.length : Int) ∧
      r.coordinates.Sublist
        ((List.range r.attempts.toNat).map (fun k : Nat => ((4 : ℚ) + (k : ℚ) / 10, (51 : ℚ)))) ∧
      ∀ (i j : Nat) (p q : Coord), i ≠ j →
        r.coordinates[i]? = some p → r.coordinates[j]? = some q →
        ¬ (|exactArith.sub p.1 q.1| < EPS ∧ |exactArith.sub p.2 q.2| < EPS)) :=
  ⟨by decide, sample_bounded_distinct exactArith _ _ 2 (by decide)⟩

/-! ## Termination of the sampling loop -/

/-- The result of the sampling loop does not depend on the bound on the
number of iterations, once that bound is at least `max_attempts - attempts`. -/
theorem sample_loop_fuel (fa : FloatArith) (poly : List Coord) (count max_attempts : Int)
    (candidate : Nat → Coord) :
    ∀ (fuel1 fuel2 : Nat) (cs : List Coord) (a : Int),
      max_attempts - a ≤ (fuel1 : Int) → max_attempts - a ≤ (fuel2 : Int) →
      sample_loop fa poly count max_attempts candidate fuel1 cs a =
        sample_loop fa poly count max_attempts candidate fuel2 cs a := by
  intro fuel1
  induction fuel1 with
  | zero =>
    intro fuel2 cs a h1 _
    push_cast at h1
    cases fuel2 with
    | zero => rfl
    | succ m =>
      simp only [sample_loop]
      rw [if_neg (by omega)]
  | succ n ih =>
    intro fuel2 cs a h1 h2
    push_cast at h1
    cases fuel2 with
    | zero =>
      push_cast at h2
      simp only [sample_loop]
      rw [if_neg (by omega)]
    | succ m =>
      push_cast at h2
      simp only [sample_loop]
      by_cases hc : (cs.length : Int) < count ∧ a < max_attempts
      · rw [if_pos hc, if_pos hc]
        split_ifs
        · exact ih m cs (a + 1) (by omega) (by omega)
        · exact ih m cs (a + 1) (by omega) (by omega)
        · exact ih m _ (a + 1) (by omega) (by omega)
      · rw [if_neg hc, if_neg hc]

/-- Counting in the sampling loop, started on the empty list with
`attempts = 0`: `attempts` stays within `[0, max_attempts]`, no more points are
stored than candidates were drawn, and a list of `count` points ends with the
candidate drawn last, the points before it being fewer than `count`. -/
theorem sample_loop_count (fa : FloatArith) (poly : List Coord) (count max_attempts : Int)
    (candidate : Nat → Coord) (hcount : 0 < count) (hmax : 0 ≤ max_attempts) (fuel : Nat) :
    let r := sample_loop fa poly count max_attempts candidate fuel [] 0
    0 ≤ r.2 ∧ r.2 ≤ max_attempts ∧ (r.1.length : Int) ≤ r.2 ∧
    ((r.1.length : Int) < count ∨
      (1 ≤ r.2 ∧ ∃ cs, r.1 = cs ++ [candidate (r.2 - 1).toNat] ∧ (cs.length : Int) < count)) := by
  have key := sample_loop_inv fa poly count max_attempts candidate
    (fun cs a =>
      0 ≤ a ∧ a ≤ max_attempts ∧ (cs.length : Int) ≤ a ∧
      ((cs.length : Int) < count ∨
        (1 ≤ a ∧ ∃ cs0, cs = cs0 ++ [candidate (a - 1).toNat] ∧ (cs0.length : Int) < count)))
    (by
      rintro cs a ⟨h1, h2, h3, _⟩ hlt ha
      exact ⟨by omega, by omega, by omega, Or.inl hlt⟩)
    (by
      rintro cs a ⟨h1, h2, h3, _⟩ hlt ha _ _
      refine ⟨by omega, by omega, ?_, Or.inr ⟨by omega, cs, ?_, hlt⟩⟩
      · rw [List.length_append]
        simp only [List.length_singleton]
        push_cast
        omega
      · have : a + 1 - 1 = a := by omega
        rw [this])
    fuel [] 0
    ⟨le_refl 0, hmax, by simp, Or.inl (by simpa using hcount)⟩
  exact key

/-- Claim C11.  For every `count > 0` and every random source, the sampler
returns when `count * 1000` is a representable `int`, and on return: the
number `attempts` of candidates drawn is at most `max(10000, count * 1000)`;
the loop ended by its own condition (allowing more iterations gives the same
result); when `count` points are returned the last of them is the candidate
drawn last, so nothing is drawn after the `count`-th acceptance; and fewer
than `count` points are returned only when exactly `max(10000, count * 1000)`
candidates were drawn, the partial list being the returned result. -/
theorem sampling_stops (fa : FloatArith) (candidate : Nat → Coord) (old : SamplerState)
    (count : Int) (hc : 0 < count) :
    (count * 1000 ≤ INT32_MAX →
      ∃ r, sample_locations_in_belgium fa candidate old count = some r) ∧
    ∀ r, sample_locations_in_belgium fa candidate old count = some r →
      (0 ≤ r.attempts ∧ r.attempts ≤ max 10000 (count * 1000)) ∧
      (r.coordinates.length : Int) ≤ r.attempts ∧
      (∀ fuel : Nat, max 10000 (count * 1000) ≤ (fuel : Int) →
        sample_loop fa belgium_poly count (max 10000 (count * 1000)) candidate fuel [] 0 =
          (r.coordinates, r.attempts)) ∧
      ((r.coordinates.length : Int) = count ∨ r.attempts = max 10000 (count * 1000)) ∧
      ((r.coordinates.length : Int) = count →
        1 ≤ r.attempts ∧
        ∃ cs, r.coordinates = cs ++ [candidate (r.attempts - 1).toNat] ∧
          (cs.length : Int) = count - 1) ∧
      ((r.coordinates.length : Int) < count → r.attempts = max 10000 (count * 1000)) := by
  obtain ⟨h1, h2⟩ := sample_eq fa candidate old hc
  refine ⟨h1, ?_⟩
  intro r hr
  obtain ⟨-, e1, e2, -, -⟩ := h2 r hr
  have hM : (0 : Int) ≤ max 10000 (count * 1000) := le_trans (by norm_num) (le_max_left _ _)
  have hfuel : max 10000 (count * 1000) - 0 ≤ (((max 10000 (count * 1000)).toNat : Nat) : Int) := by
    rw [Int.toNat_of_nonneg hM]
    omega
  obtain ⟨c1, c2, c3, c4⟩ := sample_loop_count fa belgium_poly count (max 10000 (count * 1000))
    candidate hc hM (max 10000 (count * 1000)).toNat
  have hex := sample_loop_exit fa belgium_poly count (max 10000 (count * 1000)) candidate
    (max 10000 (count * 1000)).toNat [] 0 hfuel
  have hle := (sample_loop_spec fa belgium_poly count (max 10000 (count * 1000)) candidate
    (by omega) (max 10000 (count * 1000)).toNat).2.1
  rw [← e1] at c3 c4 hex hle
  rw [← e2] at c1 c2 c3 c4 hex
  refine ⟨⟨c1, c2⟩, c3, ?_, ?_, ?_, ?_⟩
  · intro fuel hf
    rw [sample_loop_fuel fa belgium_poly count (max 10000 (count * 1000)) candidate fuel
      (max 10000 (count * 1000)).toNat [] 0 (by omega) hfuel, e1, e2]
  · by_cases hl : (r.coordinates.length : Int) < count
    · right
      by_contra hne
      exact hex ⟨hl, by omega⟩
    · left
      omega
  · intro hl
    rcases c4 with h | ⟨ha, cs, hcs, hlen⟩
    · omega
    · refine ⟨ha, cs, hcs, ?_⟩
      have : r.coordinates.length = cs.length + 1 := by
        rw [hcs, List.length_append, List.length_singleton]
      omega
  · intro hl
    by_contra hne
    exact hex ⟨hl, by omega⟩

/-- Witness of C11 at `count = 2`, candidates on the parallel of latitude 51. -/
theorem sampling_stops_witness :
    (0 : Int) < 2 ∧
    ((2 * 1000 ≤ INT32_MAX →
      ∃ r, sample_locations_in_belgium exactArith (fun k => (4 + (k : ℚ) / 10, 51))
        ⟨[], 0, false, 0⟩ 2 = some r) ∧
    ∀ r, sample_locations_in_belgium exactArith (fun k => (4 + (k : ℚ) / 10, 51))
        ⟨[], 0, false, 0⟩ 2 = some r →
      (0 ≤ r.attempts ∧ r.attempts ≤ max 10000 (2 * 1000)) ∧
      (r.coordinates.length : Int) ≤ r.attempts ∧
      ((r.coordinates.length : Int) = 2 ∨ r.attempts = max 10000 (2 * 1000)) ∧
      ((r.coordinates.length : Int) < 2 → r.attempts = max 10000 (2 * 1000))) :=
  ⟨by decide, (sampling_stops exactArith _ _ 2 (by decide)).1,
    fun r hr =>
      let t := (sampling_stops exactArith (fun k => (4 + (k : ℚ) / 10, 51))
        ⟨[], 0, false, 0⟩ 2 (by decide)).2 r hr
      ⟨t.1, t.2.1, t.2.2.2.1, t.2.2.2.2.2⟩⟩

/-! ## The ray casting test -/

/-- State of the loop of `point_in_polygon` after the first `k` edges:
`inside` is the parity of the number of edges crossed so far and `j` is the
vertex before `k`. -/
theorem point_in_polygon_loop (fa : FloatArith) (lon lat : ℚ) (poly : List Coord) :
    ∀ k : Nat,
      (List.range k).foldl
        (fun (acc : Bool × Nat) (i : Nat) =>
          let inside := acc.1
          let j := acc.2
          let xi := (poly.getD i (0, 0)).1
          let yi := (poly.getD i (0, 0)).2
          let xj := (poly.getD j (0, 0)).1
          let yj := (poly.getD j (0, 0)).2
          let intersect : Bool :=
            (decide (yi > lat) != decide (yj > lat)) &&
              decide (lon < fa.add
                (fa.div (fa.mul (fa.sub xj xi) (fa.sub lat yi)) (fa.add (fa.sub yj yi) 0)) xi)
          (if intersect then !inside else inside, i))
        (false, poly.length - 1) =
      (decide (((List.range k).filter (edge_crossed fa lon lat poly)).length % 2 = 1),
        previous_vertex poly.length k) := by
  intro k
  induction k with
  | zero => simp [previous_vertex]
  | succ k ih =>
    rw [List.range_succ, List.foldl_append, ih, List.filter_append, List.length_append]
    simp only [List.foldl_cons, List.foldl_nil]
    have hprev : previous_vertex poly.length (k + 1) = k := by simp [previous_vertex]
    rw [hprev]
    have hstep : ((decide ((poly.getD k (0, 0)).2 > lat) !=
          decide ((poly.getD (previous_vertex poly.length k) (0, 0)).2 > lat)) &&
        decide (lon < fa.add
          (fa.div (fa.mul (fa.sub (poly.getD (previous_vertex poly.length k) (0, 0)).1
              (poly.getD k (0, 0)).1) (fa.sub lat (poly.getD k (0, 0)).2))
            (fa.add (fa.sub (poly.getD (previous_vertex poly.length k) (0, 0)).2
              (poly.getD k (0, 0)).2) 0)) (poly.getD k (0, 0)).1)) =
        edge_crossed fa lon lat poly k := rfl
    rw [hstep]
    cases hc : edge_crossed fa lon lat poly k with
    | false =>
      simp [List.filter_cons, hc]
    | true =>
      simp only [List.filter_cons, hc, if_true, List.filter_nil, List.length_singleton,
        Prod.mk.injEq, and_true]
      by_cases hp : ((List.range k).filter (edge_crossed fa lon lat poly)).length % 2 = 1
      · have : ¬ ((((List.range k).filter (edge_crossed fa lon lat poly)).length + 1) % 2 = 1) := by
          omega
        simp [hp, this]
      · have : (((List.range k).filter (edge_crossed fa lon lat poly)).length + 1) % 2 = 1 := by
          omega
        simp [hp, this]

/-- The test returns the parity of the number of crossed edges. -/
theorem point_in_polygon_eq (fa : FloatArith) (lon lat : ℚ) (poly : List Coord) :
    point_in_polygon fa lon lat poly = decide (crossings fa lon lat poly % 2 = 1) := by
  unfold point_in_polygon crossings
  simp only []
  rw [point_in_polygon_loop fa lon lat poly poly.length]

/-- When `intersect` holds: exactly one endpoint latitude is strictly greater
than `lat`, and `lon` is less than the longitude of the edge at `lat`. -/
theorem edge_crossed_iff (fa : FloatArith) (lon lat : ℚ) (poly : List Coord) (i : Nat) :
    edge_crossed fa lon lat poly i = true ↔
      (((poly.getD i (0, 0)).2 ≤ lat ∧
          lat < (poly.getD (previous_vertex poly.length i) (0, 0)).2) ∨
        ((poly.getD (previous_vertex poly.length i) (0, 0)).2 ≤ lat ∧
          lat < (poly.getD i (0, 0)).2)) ∧
      lon < edge_longitude fa lat poly i := by
  unfold edge_crossed
  generalize (poly.getD i (0, 0)).2 = yi
  generalize (poly.getD (previous_vertex poly.length i) (0, 0)).2 = yj
  generalize edge_longitude fa lat poly i = x
  simp only [Bool.and_eq_true, decide_eq_true_eq, bne_iff_ne, ne_eq, gt_iff_lt]
  constructor
  · rintro ⟨h1, h2⟩
    refine ⟨?_, h2⟩
    by_cases ha : lat < yi
    · by_cases hb : lat < yj
      · simp [ha, hb] at h1
      · exact Or.inr ⟨not_lt.1 hb, ha⟩
    · by_cases hb : lat < yj
      · exact Or.inl ⟨not_lt.1 ha, hb⟩
      · simp [ha, hb] at h1
  · rintro ⟨h1, h2⟩
    refine ⟨?_, h2⟩
    rcases h1 with ⟨ha, hb⟩ | ⟨ha, hb⟩
    · simp [not_lt.2 ha, hb]
    · simp [not_lt.2 ha, hb]

theorem getD_mem_of_lt {l : List Coord} {i : Nat} (h : i < l.length) (d : Coord) :
    l.getD i d ∈ l := by
  rw [List.getD_eq_getElem l d h]
  exact List.getElem_mem h

/-- Claim C12, as amended.  For every polygon and every point `(lon, lat)`,
`point_in_polygon` returns true exactly when the number of crossed edges
(vertex `i` to vertex `i - 1`, cyclically) is odd, where an edge is crossed
when exactly one of its endpoint latitudes is strictly greater than `lat`
(the lower endpoint latitude is at most `lat`, the upper one above `lat`) and
`lon` is less than the longitude the code computes for the edge at `lat`
(the linear interpolation, in exact arithmetic).  An edge with an endpoint at
latitude `lat` is crossed exactly when its other endpoint lies strictly above
`lat` and `lon` is less than that longitude.  Every edge crossed in the strict
sense is crossed, and when no vertex lies at latitude `lat` the two counts
agree. -/
theorem ray_casting_parity (fa : FloatArith) (lon lat : ℚ) (poly : List Coord) :
    (point_in_polygon fa lon lat poly = true ↔ Odd (crossings fa lon lat poly)) ∧
    (∀ i : Nat, previous_vertex poly.length i = if i = 0 then poly.length - 1 else i - 1) ∧
    (∀ i : Nat, edge_crossed fa lon lat poly i = true ↔
      (((poly.getD i (0, 0)).2 ≤ lat ∧
          lat < (poly.getD (previous_vertex poly.length i) (0, 0)).2) ∨
        ((poly.getD (previous_vertex poly.length i) (0, 0)).2 ≤ lat ∧
          lat < (poly.getD i (0, 0)).2)) ∧
      lon < edge_longitude fa lat poly i) ∧
    (∀ i : Nat, (poly.getD i (0, 0)).2 = lat →
      (edge_crossed fa lon lat poly i = true ↔
        lat < (poly.getD (previous_vertex poly.length i) (0, 0)).2 ∧
          lon < edge_longitude fa lat poly i)) ∧
    (∀ i : Nat, (poly.getD (previous_vertex poly.length i) (0, 0)).2 = lat →
      (edge_crossed fa lon lat poly i = true ↔
        lat < (poly.getD i (0, 0)).2 ∧ lon < edge_longitude fa lat poly i)) ∧
    (∀ i : Nat, edge_crossed_strict fa lon lat poly i = true →
      edge_crossed fa lon lat poly i = true) ∧
    ((∀ p ∈ poly, p.2 ≠ lat) →
      crossings fa lon lat poly = crossings_strict fa lon lat poly) ∧
    (∀ i : Nat, edge_longitude exactArith lat poly i =
      ((poly.getD (previous_vertex poly.length i) (0, 0)).1 - (poly.getD i (0, 0)).1) *
          (lat - (poly.getD i (0, 0)).2) /
        ((poly.getD (previous_vertex poly.length i) (0, 0)).2 - (poly.getD i (0, 0)).2) +
      (poly.getD i (0, 0)).1) := by
  have hstrict : ∀ i : Nat, edge_crossed_strict fa lon lat poly i = true ↔
      (((poly.getD i (0, 0)).2 < lat ∧
          lat < (poly.getD (previous_vertex poly.length i) (0, 0)).2) ∨
        ((poly.getD (previous_vertex poly.length i) (0, 0)).2 < lat ∧
          lat < (poly.getD i (0, 0)).2)) ∧
      lon < edge_longitude fa lat poly i := by
    intro i
    unfold edge_crossed_strict
    rw [Bool.and_eq_true, decide_eq_true_eq, decide_eq_true_eq]
  refine ⟨?_, fun i => rfl, edge_crossed_iff fa lon lat poly, ?_, ?_, ?_, ?_, ?_⟩
  · rw [point_in_polygon_eq, decide_eq_true_eq, Nat.odd_iff]
  · intro i hi
    rw [edge_crossed_iff, hi]
    constructor
    · rintro ⟨h | h, h2⟩
      · exact ⟨h.2, h2⟩
      · exact absurd h.2 (lt_irrefl lat)
    · rintro ⟨h1, h2⟩
      exact ⟨Or.inl ⟨le_refl lat, h1⟩, h2⟩
  · intro i hi
    rw [edge_crossed_iff, hi]
    constructor
    · rintro ⟨h | h, h2⟩
      · exact absurd h.2 (lt_irrefl lat)
      · exact ⟨h.2, h2⟩
    · rintro ⟨h1, h2⟩
      exact ⟨Or.inr ⟨le_refl lat, h1⟩, h2⟩
  · intro i h
    rw [hstrict] at h
    rw [edge_crossed_iff]
    refine ⟨?_, h.2⟩
    rcases h.1 with ⟨a, b⟩ | ⟨a, b⟩
    · exact Or.inl ⟨a.le, b⟩
    · exact Or.inr ⟨a.le, b⟩
  · intro hne
    unfold crossings crossings_strict
    congr 1
    apply List.filter_congr
    intro i hi
    have hil : i < poly.length := List.mem_range.1 hi
    have hjl : previous_vertex poly.length i < poly.length := by
      unfold previous_vertex
      split_ifs <;> omega
    have h1 := hne _ (getD_mem_of_lt hil (0, 0))
    have h2 := hne _ (getD_mem_of_lt hjl (0, 0))
    rw [Bool.eq_iff_iff, edge_crossed_iff, hstrict]
    constructor
    · rintro ⟨h | h, h3⟩
      · exact ⟨Or.inl ⟨lt_of_le_of_ne h.1 h1, h.2⟩, h3⟩
      · exact ⟨Or.inr ⟨lt_of_le_of_ne h.1 h2, h.2⟩, h3⟩
    · rintro ⟨h | h, h3⟩
      · exact ⟨Or.inl ⟨h.1.le, h.2⟩, h3⟩
      · exact ⟨Or.inr ⟨h.1.le, h.2⟩, h3⟩
  · intro i
    simp [edge_longitude, exactArith]

/-- Counterexample to C12 as stated.  For the diamond with vertices `(0, 1)`,
`(1, 0)`, `(2, 1)`, `(1, 2)` and its centre `(1, 1)`, every edge has an endpoint
at latitude 1, so no edge is crossed in the strict sense (an even number),
yet `point_in_polygon` returns true: the edge from `(1, 2)` to `(2, 1)` is
crossed. -/
theorem ray_casting_counterexample :
    point_in_polygon exactArith 1 1 diamond = true ∧
    crossings_strict exactArith 1 1 diamond = 0 ∧
    crossings exactArith 1 1 diamond = 1 ∧
    edge_crossed exactArith 1 1 diamond 3 = true ∧
    (diamond.getD (previous_vertex diamond.length 3) (0, 0)).2 = 1 := by
  have hc : crossings exactArith 1 1 diamond = 1 := by
    simp [crossings, diamond, List.range_succ, List.filter_cons, edge_crossed, edge_longitude,
      previous_vertex, exactArith]
    norm_num
  refine ⟨?_, by decide, hc, ?_, ?_⟩
  · rw [point_in_polygon_eq, hc]
    rfl
  · simp [diamond, edge_crossed, edge_longitude, previous_vertex, exactArith]
    norm_num
  · simp [diamond, previous_vertex]

/-! ## Independence of the number of workers -/

/-- With at least one worker the fill is: compute the ranges, then run the
sequential fill. -/
theorem fill_eq_sequential (W : Collaborators) (N : Int) (coordinates : Int → Coord) {w : Int}
    (hw : 1 ≤ w) :
    calculate_osrm_metrics W N coordinates w =
      if N ≤ 0 then none
      else (run_parallel_ranges N N w).bind fun _ => sequential_fill W N coordinates := by
  unfold calculate_osrm_metrics
  split_ifs with hN
  · rfl
  · rw [osrmEngine_eq W _ _ _ _ hw]
    rfl

/-- Claim C14.  For every location set, every routing client whose answer is
a function of the queried pair, and all worker counts `w1 ≥ 1`, `w2 ≥ 1`: the
fill returns whenever the bounds `InRange` hold; two fills that return leave identical distance and duration matrices (the whole
final state is the same); a fill that returns with `w1` workers returns the
same state with `w2` workers whenever `N*N + w2` is a representable `int`; and
it returns the same state with one worker, which is the state of the
sequential cell-by-cell fill. -/
theorem fill_independent_of_workers (W : Collaborators) (N : Int) (coordinates : Int → Coord)
    (w1 w2 : Int) (h1 : 1 ≤ w1) (h2 : 1 ≤ w2) :
    (1 ≤ N → InRange W N coordinates w1 →
      ∃ st, calculate_osrm_metrics W N coordinates w1 = some st) ∧
    (∀ st1 st2, calculate_osrm_metrics W N coordinates w1 = some st1 →
      calculate_osrm_metrics W N coordinates w2 = some st2 →
      st1 = st2 ∧ st1.travel_distances = st2.travel_distances ∧
        st1.travel_times = st2.travel_times) ∧
    (∀ st, calculate_osrm_metrics W N coordinates w1 = some st →
      N * N + w2 ≤ INT32_MAX → calculate_osrm_metrics W N coordinates w2 = some st) ∧
    (∀ st, calculate_osrm_metrics W N coordinates w1 = some st →
      calculate_osrm_metrics W N coordinates 1 = some st ∧
      sequential_fill W N coordinates = some st) := by
  have hseq : ∀ w st, 1 ≤ w → calculate_osrm_metrics W N coordinates w = some st →
      1 ≤ N ∧ N * N + w ≤ INT32_MAX ∧ sequential_fill W N coordinates = some st := by
    intro w st hw h
    rw [fill_eq_sequential W N coordinates hw] at h
    by_cases hN : N ≤ 0
    · rw [if_pos hN] at h
      cases h
    · rw [if_neg hN, Option.bind_eq_some] at h
      obtain ⟨rs, hrs, hs⟩ := h
      have hT0 : 0 ≤ N * N := by nlinarith
      exact ⟨by omega, (run_parallel_ranges_spec hT0 hw hrs).1, hs⟩
  have hback : ∀ w st, 1 ≤ w → 1 ≤ N → N * N + w ≤ INT32_MAX →
      sequential_fill W N coordinates = some st →
      calculate_osrm_metrics W N coordinates w = some st := by
    intro w st hw hN hr hs
    have hT0 : 0 ≤ N * N := by nlinarith
    obtain ⟨rs, hrs⟩ := run_parallel_ranges_some hT0 hw hr
    rw [fill_eq_sequential W N coordinates hw, if_neg (by omega), hrs]
    exact hs
  refine ⟨fun hN hb => fill_returns_of_bounds W coordinates hN h1 hb, ?_, ?_, ?_⟩
  · intro st1 st2 e1 e2
    have a := (hseq w1 st1 h1 e1).2.2
    have b := (hseq w2 st2 h2 e2).2.2
    rw [a] at b
    have e : st1 = st2 := Option.some.inj b
    exact ⟨e, by rw [e], by rw [e]⟩
  · intro st e1 hr
    obtain ⟨hN, -, hs⟩ := hseq w1 st h1 e1
    exact hback w2 st h2 hN hr hs
  · intro st e1
    obtain ⟨hN, hr, hs⟩ := hseq w1 st h1 e1
    exact ⟨hback 1 st (le_refl 1) hN (by omega) hs, hs⟩

/-- Witness of C14: two locations, every request answered `Ok{1500, 120}`, with
two workers and with five workers. -/
theorem fill_independent_of_workers_witness :
    ∃ st, calculate_osrm_metrics (scenario 1000 (RouteOutcome.Ok 1500 120)) 2
        (line_coordinates (143 / 10000)) 2 = some st ∧
      calculate_osrm_metrics (scenario 1000 (RouteOutcome.Ok 1500 120)) 2
        (line_coordinates (143 / 10000)) 5 = some st ∧
      calculate_osrm_metrics (scenario 1000 (RouteOutcome.Ok 1500 120)) 2
        (line_coordinates (143 / 10000)) 1 = some st ∧
      sequential_fill (scenario 1000 (RouteOutcome.Ok 1500 120)) 2
        (line_coordinates (143 / 10000)) = some st := by
  have hs : (143 / 10000 : ℚ) ≠ 0 := by norm_num
  have hthm := fill_independent_of_workers (scenario 1000 (RouteOutcome.Ok 1500 120)) 2
    (line_coordinates (143 / 10000)) 2 5 (by norm_num) (by norm_num)
  obtain ⟨st, h⟩ := hthm.1 (by norm_num)
    (scenario_inRange hs (by decide) (by norm_num) (by norm_num)
      (by
        intro d t e
        cases e
        constructor <;> norm_num))
  exact ⟨st, h, hthm.2.2.1 st h (by decide), (hthm.2.2.2 st h).1, (hthm.2.2.2 st h).2⟩

/-! ## The requests sent by the fill -/

/-- One iteration of the routing pass appends one request for a non-diagonal
cell and none for a diagonal cell. -/
theorem osrm_step_queries (W : Collaborators) (c1 c2 : Int → Coord) {n : Int} (hn : 1 ≤ n)
    (hT : n * n ≤ INT32_MAX) (s1 : EngineState) (k : Int) (s s' : EngineState)
    (hk0 : 0 ≤ k) (hk : k < n * n) (hI : OsrmInv W c1 c2 n s1 k s)
    (h : osrm_step W c1 c2 n s k = some s') :
    s'.queries = s.queries ++
      ([k].filter (fun q => decide (q / n ≠ q % n))).map (fun q => (c1 (q / n), c2 (q % n))) := by
  have hmax : INT32_MAX = 2147483647 := rfl
  obtain ⟨-, hkt⟩ := hI.2.1 k (le_refl k) hk
  rw [osrm_step_eq W c1 c2 hn hk0 hk hT] at h
  by_cases hdiag : k / n = k % n
  · have htt : s.travel_times (k / n) (k % n) ≠ INT32_MAX := by
      rw [hkt]
      simp [initial_matrix, hdiag, hmax]
    rw [if_neg htt] at h
    simp only [Option.some.injEq] at h
    subst h
    simp [List.filter_cons, hdiag]
  · have htt : s.travel_times (k / n) (k % n) = INT32_MAX := by
      rw [hkt]
      simp [initial_matrix, hdiag]
    rw [if_pos htt, Option.bind_eq_some] at h
    obtain ⟨r, -, e⟩ := h
    simp only [Option.some.injEq] at e
    subst e
    simp [List.filter_cons, hdiag]

/-- The requests of a fill that returned, with at least one worker: one per
non-diagonal flat index, in increasing order, with the coordinates of the row
as origin and those of the column as destination. -/
theorem fill_queries (W : Collaborators) {N w : Int} (coordinates : Int → Coord)
    {st : EngineState} (hw : 1 ≤ w)
    (h : calculate_osrm_metrics W N coordinates w = some st) :
    st.queries = (off_diagonal N).map (fun q => (coordinates (q / N), coordinates (q % N))) := by
  have hmax : INT32_MAX = 2147483647 := rfl
  unfold calculate_osrm_metrics at h
  by_cases hN : N ≤ 0
  · rw [if_pos hN] at h
    cases h
  rw [if_neg hN, osrmEngine_eq W _ _ _ _ hw] at h
  have hn : 1 ≤ N := by omega
  have hT0 : 0 ≤ N * N := by nlinarith
  simp only [Option.bind_eq_some] at h
  obtain ⟨rs, hrs, s1, hs1, hs2⟩ := h
  obtain ⟨hr, -, -⟩ := run_parallel_ranges_spec hT0 hw hrs
  have hT : N * N ≤ INT32_MAX := by omega
  have hI1 := loop_inv _ (HarvestInv W coordinates coordinates N _) hT0
    (fun k s s' hk0 hk hI hs => harvest_step_inv W coordinates coordinates hn hT _ k s s' hk0 hk hI hs)
    ⟨rfl, rfl, rfl, fun q hq0 hq => absurd hq (by omega)⟩ hs1
  obtain ⟨e1, e2, e3, -⟩ := hI1
  have hI2 := loop_inv _
    (fun k s => OsrmInv W coordinates coordinates N s1 k s ∧
      s.queries = ((loop_indices 0 k).filter (fun q => decide (q / N ≠ q % N))).map
        (fun q => (coordinates (q / N), coordinates (q % N)))) hT0
    (fun k s s' hk0 hk hI hs => by
      refine ⟨osrm_step_inv W coordinates coordinates hn hT s1 k s s' hk0 hk hI.1 hs, ?_⟩
      rw [osrm_step_queries W coordinates coordinates hn hT s1 k s s' hk0 hk hI.1 hs, hI.2,
        loop_indices_succ hk0, List.filter_append, List.map_append])
    ⟨⟨rfl, fun q _ _ => by rw [e1, e2]; exact ⟨rfl, rfl⟩, fun q hq0 hq => absurd hq (by omega)⟩,
      by rw [e3, loop_indices_empty (le_refl (0 : Int))]; rfl⟩ hs2
  exact hI2.2

theorem nodup_loop_indices (a b : Int) : (loop_indices a b).Nodup := by
  unfold loop_indices
  apply List.Nodup.map _ (List.nodup_range _)
  intro x y hxy
  simp only at hxy
  omega

theorem mem_off_diagonal {N q : Int} :
    q ∈ off_diagonal N ↔ (0 ≤ q ∧ q < N * N) ∧ q / N ≠ q % N := by
  unfold off_diagonal
  rw [List.mem_filter, mem_loop_indices, decide_eq_true_eq]

theorem nodup_queried_pairs (N : Int) : (queried_pairs N).Nodup := by
  unfold queried_pairs off_diagonal
  apply List.Nodup.map_on _ ((nodup_loop_indices 0 (N * N)).filter _)
  intro x _ y _ hxy
  exact flat_index_inj (Prod.mk.inj hxy).1 (Prod.mk.inj hxy).2

theorem mem_queried_pairs {N : Int} (hN : 1 ≤ N) (i j : Int) :
    (i, j) ∈ queried_pairs N ↔ 0 ≤ i ∧ i < N ∧ 0 ≤ j ∧ j < N ∧ i ≠ j := by
  unfold queried_pairs
  rw [List.mem_map]
  constructor
  · rintro ⟨q, hq, e⟩
    obtain ⟨⟨hq0, hq1⟩, hne⟩ := mem_off_diagonal.1 hq
    obtain ⟨e1, e2⟩ := Prod.mk.inj e
    have h1 : 0 ≤ q / N := Int.ediv_nonneg hq0 (by omega)
    have h2 : q / N < N := Int.ediv_lt_of_lt_mul (by omega) hq1
    have h3 : 0 ≤ q % N := Int.emod_nonneg q (by omega)
    have h4 : q % N < N := Int.emod_lt_of_pos q (by omega)
    rw [e1] at h1 h2 hne
    rw [e2] at h3 h4 hne
    exact ⟨h1, h2, h3, h4, hne⟩
  · rintro ⟨hi0, hi, hj0, hj, hij⟩
    obtain ⟨hq0, hq, hqi, hqj⟩ := flat_index_of_cell hi0 hi hj0 hj
    refine ⟨i * N + j, mem_off_diagonal.2 ⟨⟨hq0, hq⟩, ?_⟩, ?_⟩
    · rw [hqi, hqj]
      exact hij
    · rw [hqi, hqj]

/-- An `N × N` matrix has `N * N - N` non-diagonal cells. -/
theorem length_off_diagonal {N : Int} (hN : 1 ≤ N) :
    ((off_diagonal N).length : Int) = N * N - N := by
  have hT0 : 0 ≤ N * N := by nlinarith
  have hNT : N ≤ N * N := by nlinarith
  have hsplit := @List.length_eq_length_filter_add _ (loop_indices 0 (N * N))
    (fun q => decide (q / N ≠ q % N))
  have hperm : ((loop_indices 0 (N * N)).filter (fun q => !decide (q / N ≠ q % N))).Perm
      ((loop_indices 0 N).map (fun i => i * N + i)) := by
    rw [List.perm_ext_iff_of_nodup ((nodup_loop_indices 0 (N * N)).filter _)]
    · intro q
      rw [List.mem_filter, mem_loop_indices, List.mem_map]
      simp only [ne_eq, decide_not, Bool.not_not, decide_eq_true_eq]
      constructor
      · rintro ⟨⟨hq0, hq1⟩, hd⟩
        have h1 : 0 ≤ q / N := Int.ediv_nonneg hq0 (by omega)
        have h2 : q / N < N := Int.ediv_lt_of_lt_mul (by omega) hq1
        refine ⟨q / N, mem_loop_indices.2 ⟨h1, h2⟩, ?_⟩
        have := Int.ediv_add_emod q N
        rw [← hd] at this
        rw [Int.mul_comm]
        exact this
      · rintro ⟨i, hi, rfl⟩
        obtain ⟨hi0, hi1⟩ := mem_loop_indices.1 hi
        obtain ⟨hq0, hq, hqi, hqj⟩ := flat_index_of_cell hi0 hi1 hi0 hi1
        exact ⟨⟨hq0, hq⟩, by rw [hqi, hqj]⟩
    · apply List.Nodup.map_on _ (nodup_loop_indices 0 N)
      intro x hx y hy hxy
      have hx0 := (mem_loop_indices.1 hx).1
      have hy0 := (mem_loop_indices.1 hy).1
      have : x * (N + 1) = y * (N + 1) := by
        simp only at hxy
        linarith
      exact Int.eq_of_mul_eq_mul_right (by omega) this
  have hlen := hperm.length_eq
  rw [List.length_map, length_loop_indices] at hlen
  rw [length_loop_indices] at hsplit
  unfold off_diagonal
  have a : (N * N - 0).toNat = (N * N).toNat := by simp
  have b : (N - 0).toNat = N.toNat := by simp
  rw [a] at hsplit
  rw [b] at hlen
  omega

/-- Claim C13.  For every `N ≥ 1`, every `worker_count ≥ 1` and every routing
client, the fill returns whenever the bounds `InRange` hold, and a fill that
returned has sent exactly the requests of the list `queried_pairs N`, one per
entry, with origin `coordinates[i]` and destination `coordinates[j]` for the
entry `(i, j)`; that list has no repetition and holds exactly the ordered
pairs `(i, j)` with `i ≠ j`, so no diagonal pair is queried and no pair is
queried again, whatever the answers; there are `N*N - N` requests in total. -/
theorem one_query_per_pair (W : Collaborators) (N worker_count : Int)
    (coordinates : Int → Coord) (hN : 1 ≤ N) (hw : 1 ≤ worker_count) :
    (InRange W N coordinates worker_count →
      ∃ st, calculate_osrm_metrics W N coordinates worker_count = some st) ∧
    ∀ st, calculate_osrm_metrics W N coordinates worker_count = some st →
      st.queries = (queried_pairs N).map (fun p => (coordinates p.1, coordinates p.2)) ∧
      (queried_pairs N).Nodup ∧
      (∀ i j, (i, j) ∈ queried_pairs N ↔ 0 ≤ i ∧ i < N ∧ 0 ≤ j ∧ j < N ∧ i ≠ j) ∧
      (∀ i, (i, i) ∉ queried_pairs N) ∧
      ((queried_pairs N).length : Int) = N * N - N ∧
      (st.queries.length : Int) = N * N - N := by
  refine ⟨fun hb => fill_returns_of_bounds W coordinates hN hw hb, ?_⟩
  intro st h
  have hq : st.queries =
      (queried_pairs N).map (fun p => (coordinates p.1, coordinates p.2)) := by
    rw [fill_queries W coordinates hw h]
    unfold queried_pairs
    rw [List.map_map]
    rfl
  have hlen : ((queried_pairs N).length : Int) = N * N - N := by
    unfold queried_pairs
    rw [List.length_map]
    exact length_off_diagonal hN
  refine ⟨hq, nodup_queried_pairs N, mem_queried_pairs hN, ?_, hlen, ?_⟩
  · intro i hi
    exact ((mem_queried_pairs hN i i).1 hi).2.2.2.2 rfl
  · rw [hq, List.length_map]
    exact hlen

/-- Witness of C13: three locations, two workers, every request answered
`Error`; the six requests are listed. -/
theorem one_query_per_pair_witness :
    queried_pairs 3 = [(0, 1), (0, 2), (1, 0), (1, 2), (2, 0), (2, 1)] ∧
    ∃ st, calculate_osrm_metrics
        (scenario 1000 (RouteOutcome.Error "NoRoute" "Impossible route between points")) 3
        (line_coordinates (143 / 10000)) 2 = some st ∧
      st.queries = (queried_pairs 3).map
        (fun p => (line_coordinates (143 / 10000) p.1, line_coordinates (143 / 10000) p.2)) ∧
      (st.queries.length : Int) = 3 * 3 - 3 := by
  have hs : (143 / 10000 : ℚ) ≠ 0 := by norm_num
  have hthm := one_query_per_pair
    (scenario 1000 (RouteOutcome.Error "NoRoute" "Impossible route between points")) 3 2
    (line_coordinates (143 / 10000)) (by norm_num) (by norm_num)
  obtain ⟨st, h⟩ := hthm.1
    (scenario_inRange hs (by decide) (by norm_num) (by norm_num)
      (by
        intro d t e
        cases e))
  exact ⟨by decide, st, h, (hthm.2 st h).1, (hthm.2 st h).2.2.2.2.2⟩

end OsrmOutput
